import Mathlib

/-!
Verification development for `update_contributions.py`, a script that fetches a
user's merged external pull requests and top languages from a REST API and
rewrites marker-bounded sections of a README file.

Strings are modelled as `List Char` (`Str`), documents included.  Network
effects are modelled by passing the fetched data (raw search items, a
repository-metadata lookup function, repository/language listings) as explicit
inputs to the pure core of each function.  Python floats are idealised as exact
rationals (`ℚ`).
-/

/-- Strings of the Python program, modelled as lists of characters. -/
abbrev Str : Type := List Char

/-- Decimal digit characters. -/
def isDigitChar (c : Char) : Bool :=
  decide ('0' ≤ c) && decide (c ≤ '9')

/-- Auxiliary fueled decimal printer (the fuel bounds the number of digits). -/
def natToStrAux : Nat → Nat → Str
  | 0, _ => []
  | fuel + 1, n =>
    if n < 10 then [Nat.digitChar n]
    else natToStrAux fuel (n / 10) ++ [Nat.digitChar (n % 10)]

/-- Decimal rendering of a natural number, modelling Python `str(n)` /
`"%d" % n` (no padding, no sign). -/
def natToStr (n : Nat) : Str :=
  natToStrAux (n + 1) n

/-- Model of Python `int(s)` restricted to plain digit strings: `some v` when
`s` is a nonempty string of decimal digits, `none` otherwise (Python raises
`ValueError` there; signs, whitespace and underscores never occur in the
strings this program feeds to `int`). -/
def pyToNatOpt (s : Str) : Option Nat :=
  if s ≠ [] ∧ s.all isDigitChar then
    some (s.foldl (fun a c => 10 * a + (c.toNat - 48)) 0)
  else none

/-- Split on single whitespace characters, keeping empty pieces (helper for
`pySplit`); the inner `[]` case is unreachable (`splitWs` never returns an
empty list of pieces). -/
def splitWs : Str → List Str
  | [] => [[]]
  | ch :: rest =>
    match splitWs rest with
    | [] => [[]]
    | hd :: tl => if ch.isWhitespace then [] :: hd :: tl else (ch :: hd) :: tl

/-- Model of Python `s.split()` (no separator argument): split on whitespace
runs, discarding empty pieces. -/
def pySplit (s : Str) : List Str :=
  (splitWs s).filter (fun p => p ≠ [])

/-- Model of Python `s.split("/")`: split at every slash, keeping empty
pieces (the inner `[]` case is unreachable). -/
def splitSlash : Str → List Str
  | [] => [[]]
  | ch :: rest =>
    match splitSlash rest with
    | [] => [[]]
    | hd :: tl => if ch = '/' then [] :: hd :: tl else (ch :: hd) :: tl

/-- The two empty result shapes the API client can substitute on an HTTP
error: an empty JSON list or an empty JSON object. -/
inductive ApiEmpty : Type
  | list : ApiEmpty
  | map : ApiEmpty
deriving DecidableEq

/-- Error branch of `api` (the `except HTTPError` handler): the diagnostic
line printed to stderr, `f"API error {e.code}: {url}"`. -/
def apiErrorLog (code : Nat) (url : Str) : Str :=
  ("API error ").toList ++ natToStr code ++ (": ").toList ++ url

/-- Error branch of `api`: the substituted result, `[] if "search" in url
else {}`. -/
def apiErrorResult (url : Str) : ApiEmpty :=
  if ("search").toList <:+: url then ApiEmpty.list else ApiEmpty.map

/-- Number of days of a month, with leap-year handling for February
(mirrors the calendar validation `datetime.strptime` performs). -/
def daysInMonth (y m : Nat) : Nat :=
  if m = 2 then
    if (y % 4 = 0 ∧ y % 100 ≠ 0) ∨ y % 400 = 0 then 29 else 28
  else if m = 4 ∨ m = 6 ∨ m = 9 ∨ m = 11 then 30 else 31

/-- Parser for the canonical fixed-width ISO-8601 timestamp
`YYYY-MM-DDTHH:MM:SSZ`, modelling
`datetime.strptime(s, "%Y-%m-%dT%H:%M:%SZ")` on the shape the API emits;
returns `(year, month)` (the only components used downstream) and `none` where
`strptime` raises `ValueError`.  `strptime` requires `year ≥ 1` (`MINYEAR`)
and validates the calendar day. -/
def parseIso (s : Str) : Option (Nat × Nat) :=
  match s with
  | [y1, y2, y3, y4, c1, m1, m2, c2, d1, d2, c3, h1, h2, c4, i1, i2, c5, s1, s2, c6] =>
    if ([y1, y2, y3, y4, m1, m2, d1, d2, h1, h2, i1, i2, s1, s2]).all isDigitChar
        ∧ c1 = '-' ∧ c2 = '-' ∧ c3 = 'T' ∧ c4 = ':' ∧ c5 = ':' ∧ c6 = 'Z' then
      let y := ((y1.toNat - 48) * 10 + (y2.toNat - 48)) * 100 +
        ((y3.toNat - 48) * 10 + (y4.toNat - 48))
      let mo := (m1.toNat - 48) * 10 + (m2.toNat - 48)
      let d := (d1.toNat - 48) * 10 + (d2.toNat - 48)
      let h := (h1.toNat - 48) * 10 + (h2.toNat - 48)
      let mi := (i1.toNat - 48) * 10 + (i2.toNat - 48)
      let se := (s1.toNat - 48) * 10 + (s2.toNat - 48)
      if 1 ≤ y ∧ 1 ≤ mo ∧ mo ≤ 12 ∧ 1 ≤ d ∧ d ≤ daysInMonth y mo
          ∧ h ≤ 23 ∧ mi ≤ 59 ∧ se ≤ 59 then
        some (y, mo)
      else none
    else none
  | _ => none

/-- Short month names, as produced by `strftime("%b")` in the C locale. -/
def monthAbbrev (m : Nat) : Str :=
  match m with
  | 1 => ("Jan").toList
  | 2 => ("Feb").toList
  | 3 => ("Mar").toList
  | 4 => ("Apr").toList
  | 5 => ("May").toList
  | 6 => ("Jun").toList
  | 7 => ("Jul").toList
  | 8 => ("Aug").toList
  | 9 => ("Sep").toList
  | 10 => ("Oct").toList
  | 11 => ("Nov").toList
  | 12 => ("Dec").toList
  | _ => []

/-- Rendering of a merge date, `strftime("%b %Y")`: short month name, space,
year in decimal (glibc prints `%Y` without padding). -/
def fmtYM (y m : Nat) : Str :=
  monthAbbrev m ++ ' ' :: natToStr y

/-- The em-dash placeholder used when the merge timestamp is absent. -/
def emDash : Str := ("—").toList

/-- Formatting of the `merged_at` field in `main`: the placeholder for an
empty/absent raw value, otherwise `strptime` + `strftime("%b %Y")`;
`none` models the uncaught `ValueError` on a malformed non-empty value. -/
def fmtMerged (raw : Str) : Option Str :=
  if raw = [] then some emDash
  else (parseIso raw).map (fun p => fmtYM p.1 p.2)

/-- The configured maximum number of collected contributions. -/
def MAX_PRS : Nat := 20

/-- Model of `extract_repo`: split the item's `html_url` on `/` and join path
segments 3 and 4, or `None` when there are fewer than 5 segments. -/
def extract_repo (url : Str) : Option Str :=
  match splitSlash url with
  | _ :: _ :: _ :: p3 :: p4 :: _ => some (p3 ++ '/' :: p4)
  | _ => none

/-- Repository metadata used by the collector, with the defaults of
`info.get("stargazers_count", 0)` and `info.get("language")` applied. -/
structure RepoInfo where
  stars : Nat
  language : Option Str
deriving DecidableEq

/-- A raw search-result item; `merged_at` is
`pr.get("pull_request", {}).get("merged_at", "")` (empty when absent). -/
structure RawPR where
  html_url : Str
  title : Str
  number : Nat
  merged_at : Str
deriving DecidableEq

/-- A collected contribution record, as appended to `external` in `main`. -/
structure Contribution where
  repo : Str
  title : Str
  number : Nat
  url : Str
  merged_at : Str
  stars : Nat
  language : Option Str
deriving DecidableEq

/-- One iteration of the filtering loop in `main` for a single raw item:
`some none` when the item is skipped (unparseable URL or excluded repository),
`some (some c)` when a contribution is appended, `none` when the uncaught
`ValueError` of `strptime` would abort the run.  The `repo_cache` memoisation
is semantically transparent because the metadata lookup `info` is pure. -/
def toStep (owned : List Str) (info : Str → RepoInfo) (pr : RawPR) :
    Option (Option Contribution) :=
  match extract_repo pr.html_url with
  | none => some none
  | some repo =>
    if repo = [] ∨ repo ∈ owned then some none
    else
      match fmtMerged pr.merged_at with
      | none => none
      | some ma =>
        some (some ⟨repo, pr.title, pr.number, pr.html_url, ma,
          (info repo).stars, (info repo).language⟩)

/-- The filtering loop of `main` (lines 193-219): iterate over the raw items,
skip or append, and break once `len(external) >= MAX_PRS`. -/
def collectGo (owned : List Str) (info : Str → RepoInfo) :
    List RawPR → List Contribution → Option (List Contribution)
  | [], acc => some acc
  | pr :: rest, acc =>
    match toStep owned info pr with
    | none => none
    | some none => collectGo owned info rest acc
    | some (some c) =>
      if MAX_PRS ≤ (acc ++ [c]).length then some (acc ++ [c])
      else collectGo owned info rest (acc ++ [c])

/-- The list `external` as built by the filtering loop of `main`. -/
def collectExternal (owned : List Str) (info : Str → RepoInfo)
    (prs : List RawPR) : Option (List Contribution) :=
  collectGo owned info prs []

/-- The fixed month-name-to-number table `month_order` of `main`. -/
def monthTable : List (Str × Nat) :=
  [(("Jan").toList, 1), (("Feb").toList, 2), (("Mar").toList, 3),
   (("Apr").toList, 4), (("May").toList, 5), (("Jun").toList, 6),
   (("Jul").toList, 7), (("Aug").toList, 8), (("Sep").toList, 9),
   (("Oct").toList, 10), (("Nov").toList, 11), (("Dec").toList, 12)]

/-- Lookup in the month table with default 0: `month_order.get(name, 0)`. -/
def monthOrderOf (s : Str) : Nat :=
  ((monthTable).lookup s).getD 0

/-- The `sort_key` closure of `main`: split the formatted date on whitespace;
a two-part date maps to `(int(year), month_order.get(month, 0))`, anything
else to `(0, 0)`.  Python would raise `ValueError` when the year part is not
numeric; `getD 0` stands in for that case, which is unreachable for collected
entries (see `collect_dateOk`). -/
def sort_key (c : Contribution) : Nat × Nat :=
  match pySplit c.merged_at with
  | [a, b] => ((pyToNatOpt b).getD 0, monthOrderOf a)
  | _ => (0, 0)

/-- Python tuple order `x ≤ y` on pairs of naturals (lexicographic). -/
def lexLe (x y : Nat × Nat) : Prop :=
  x.1 < y.1 ∨ (x.1 = y.1 ∧ x.2 ≤ y.2)

instance : DecidableRel lexLe := fun x y => by
  unfold lexLe; infer_instance

/-- The comparison realised by `external.sort(key=sort_key, reverse=True)`:
`a` may precede `b` when its key is not smaller. -/
def contribGE (a b : Contribution) : Prop :=
  lexLe (sort_key b) (sort_key a)

instance : DecidableRel contribGE := fun a b => by
  unfold contribGE; infer_instance

instance : IsTotal Contribution contribGE where
  total a b := by
    rcases Nat.lt_trichotomy (sort_key a).1 (sort_key b).1 with h | h | h
    · exact Or.inr (Or.inl h)
    · rcases Nat.le_total (sort_key a).2 (sort_key b).2 with h2 | h2
      · exact Or.inr (Or.inr ⟨h, h2⟩)
      · exact Or.inl (Or.inr ⟨h.symm, h2⟩)
    · exact Or.inl (Or.inl h)

instance : IsTrans Contribution contribGE where
  trans a b c hab hbc := by
    rcases hab with h1 | ⟨e1, le1⟩
    · rcases hbc with h2 | ⟨e2, _⟩
      · exact Or.inl (h2.trans h1)
      · exact Or.inl (e2 ▸ h1)
    · rcases hbc with h2 | ⟨e2, le2⟩
      · exact Or.inl (e1 ▸ h2)
      · exact Or.inr ⟨e2.trans e1, le2.trans le1⟩

/-- The final reordering `external.sort(key=sort_key, reverse=True)`:
a stable sort, descending by `sort_key` (insertion sort is stable, like
Python's Timsort). -/
def sortContribs (l : List Contribution) : List Contribution :=
  l.insertionSort contribGE

/-- The collected-and-sorted contributions list of `main` (filtering loop
followed by the merge-date sort); `none` models an aborted run. -/
def mainCollect (owned : List Str) (info : Str → RepoInfo)
    (prs : List RawPR) : Option (List Contribution) :=
  (collectExternal owned info prs).map sortContribs

/-- An owned repository as consumed by `get_top_languages`: its fork flag and
the per-language byte counts fetched from its `languages_url` (an ordered JSON
object, modelled as an association list in key order). -/
structure OwnedRepo where
  fork : Bool
  languages : List (Str × Nat)
deriving DecidableEq

/-- One update of the running byte total:
`lang_bytes[lang] = lang_bytes.get(lang, 0) + count` on an insertion-ordered
Python dict: bump the value at the (unique) existing key, or append a new
binding at the end. -/
def bumpLang : List (Str × Nat) → Str → Nat → List (Str × Nat)
  | [], k, v => [(k, v)]
  | p :: rest, k, v =>
    if p.1 = k then (p.1, p.2 + v) :: rest else p :: bumpLang rest k v

/-- The accumulation loop of `get_top_languages`: skip forks, then add every
language's byte count of each remaining repository into the running total. -/
def accLangs (repos : List OwnedRepo) : List (Str × Nat) :=
  repos.foldl
    (fun m r =>
      if r.fork then m
      else r.languages.foldl (fun m2 p => bumpLang m2 p.1 p.2) m)
    []

/-- Sum of the accumulated byte counts, `sum(lang_bytes.values())`. -/
def sumBytes (m : List (Str × Nat)) : Nat :=
  (m.map (fun p => p.2)).sum

/-- Comparison used by `sorted(lang_bytes.items(), key=lambda x: x[1],
reverse=True)`: descending by raw byte count. -/
def byteGE (a b : Str × Nat) : Prop :=
  b.2 ≤ a.2

instance : DecidableRel byteGE := fun a b => by
  unfold byteGE; infer_instance

instance : IsTotal (Str × Nat) byteGE where
  total a b := Nat.le_total b.2 a.2

instance : IsTrans (Str × Nat) byteGE where
  trans _ _ _ hab hbc := Nat.le_trans hbc hab

/-- Model of `get_top_languages` on the fetched repository data: accumulate
byte counts over non-fork repositories, divide by the grand total (floored at
1 when the sum is zero: `sum(...) or 1`), rank by raw byte count descending
(stable), and keep the top 8. -/
def get_top_languages (repos : List OwnedRepo) : List (Str × ℚ) :=
  let lb := accLangs repos
  let total : Nat := if sumBytes lb = 0 then 1 else sumBytes lb
  ((lb.insertionSort byteGE).take 8).map
    (fun p => (p.1, (p.2 : ℚ) / (total : ℚ)))

/-- The `LANG_EMOJI` table. -/
def LANG_EMOJI : List (Str × Str) :=
  [(("Python").toList, ("🐍").toList), (("JavaScript").toList, ("🟨").toList),
   (("TypeScript").toList, ("🔷").toList), (("Rust").toList, ("🦀").toList),
   (("Go").toList, ("🐹").toList), (("Java").toList, ("☕").toList),
   (("C++").toList, ("⚡").toList), (("C").toList, ("⚙️").toList),
   (("Ruby").toList, ("💎").toList), (("Swift").toList, ("🍎").toList),
   (("Kotlin").toList, ("🟣").toList), (("Shell").toList, ("🐚").toList),
   (("HTML").toList, ("🌐").toList), (("CSS").toList, ("🎨").toList),
   (("PHP").toList, ("🐘").toList), (("Dart").toList, ("🎯").toList),
   (("Scala").toList, ("🔴").toList), (("Elixir").toList, ("💧").toList),
   (("Lua").toList, ("🌙").toList), (("Zig").toList, ("⚡").toList),
   (("Vue").toList, ("💚").toList)]

/-- Emoji lookup with the generic package glyph as fallback:
`LANG_EMOJI.get(lang, "📦")`. -/
def emojiOf (l : Str) : Str :=
  ((LANG_EMOJI).lookup l).getD (("📦").toList)

/-- Left-justified padding to 14 characters, `f"{lang:<14}"` (names longer
than 14 characters are kept whole, not truncated). -/
def padName (l : Str) : Str :=
  l ++ List.replicate (14 - l.length) ' '

/-- The filled bar width, `int(pct * 20)`: Python `int()` truncates toward
zero, which is the floor for the nonnegative fractions that occur here. -/
def barFill (p : ℚ) : Nat :=
  (⌊p * 20⌋).toNat

/-- The bar, `"█" * bar_width + "░" * (20 - bar_width)` (Python renders a
negative repetition count as the empty string, like truncated subtraction). -/
def barOf (p : ℚ) : Str :=
  List.replicate (barFill p) '█' ++ List.replicate (20 - barFill p) '░'

/-- Round half to even, the rounding Python applies when formatting; stated
on exact rationals (binary floating-point representation error is not
modelled). -/
def roundHalfEven (x : ℚ) : ℤ :=
  if x - ⌊x⌋ < 1 / 2 then ⌊x⌋
  else if 1 / 2 < x - ⌊x⌋ then ⌊x⌋ + 1
  else if ⌊x⌋ % 2 = 0 then ⌊x⌋ else ⌊x⌋ + 1

/-- Fixed-point rendering `f"{x:5.1f}"` for the nonnegative values that occur
here: one decimal digit, right-justified to width 5. -/
def fmt51 (x : ℚ) : Str :=
  let t := (roundHalfEven (x * 10)).toNat
  let s := natToStr (t / 10) ++ '.' :: [Nat.digitChar (t % 10)]
  List.replicate (5 - s.length) ' ' ++ s

/-- One rendered line of `build_lang_section`:
`f"  {emoji} {lang:<14} {bar} {pct * 100:5.1f}%"`. -/
def renderLine (l : Str) (p : ℚ) : Str :=
  ' ' :: ' ' :: (emojiOf l ++ ' ' :: (padName l ++ ' ' :: (barOf p ++
    ' ' :: (fmt51 (p * 100) ++ ['%']))))

/-- Model of `build_lang_section`: empty string for an empty list, otherwise
a fenced code block containing one line per language. -/
def build_lang_section (langs : List (Str × ℚ)) : Str :=
  if langs = [] then []
  else ("```\n").toList ++
    List.intercalate ['\n'] (langs.map (fun p => renderLine p.1 p.2)) ++
    ("\n```").toList

/-- Earliest occurrence of the literal `e` in `c` (the non-greedy `.*?` before
an escaped literal): `some (gap, post)` with `c = gap ++ e ++ post` and `gap`
shortest, `none` when `e` does not occur. -/
def findEnd (e : Str) (c : Str) : Option (Str × Str) :=
  if e.isPrefixOf c then some ([], c.drop e.length)
  else
    match c with
    | [] => none
    | ch :: rest => (findEnd e rest).map (fun gp => (ch :: gp.1, gp.2))

/-- Left-to-right regex scan: try the position-local matcher `tryAt` at every
position and return the leftmost match as `(prefix, matched, remainder)`. -/
def scanMatch (tryAt : Str → Option (Str × Str)) : Str → Option (Str × Str × Str)
  | [] => (tryAt []).map (fun mp => ([], mp.1, mp.2))
  | ch :: rest =>
    match tryAt (ch :: rest) with
    | some mp => some ([], mp.1, mp.2)
    | none =>
      (scanMatch tryAt rest).map (fun x => (ch :: x.1, x.2.1, x.2.2))

/-- Position-local matcher for `re.escape(start) + r".*?" + re.escape(end)`
with `re.DOTALL`: the literal `start` here, then the shortest gap (newlines
included) up to the literal `end`. -/
def tryAtSec (s e : Str) (c : Str) : Option (Str × Str) :=
  if s.isPrefixOf c then
    (findEnd e (c.drop s.length)).map (fun gp => (s ++ gp.1 ++ e, gp.2))
  else none

/-- Fueled engine for `re.sub`: repeatedly take the leftmost match, emit the
replacement `R m` computed from the matched text `m` (the replacement
template may reference group 0), and continue after the match; a zero-width
match (possible only for a pattern with empty markers) additionally copies
one character to make progress, as Python does. -/
def reSubFuel (tryAt : Str → Option (Str × Str)) (R : Str → Str) : Nat → Str → Str
  | 0, c => c
  | fuel + 1, c =>
    match scanMatch tryAt c with
    | none => c
    | some (pre, m, post) =>
      if m = [] then
        match post with
        | [] => pre ++ R m
        | ch :: rest => pre ++ R m ++ ch :: reSubFuel tryAt R fuel rest
      else pre ++ R m ++ reSubFuel tryAt R fuel post

/-- The `re.sub` model: every step consumes at least one character of the
remainder, so `length + 1` units of fuel always suffice. -/
def reSub (tryAt : Str → Option (Str × Str)) (R : Str → Str) (c : Str) : Str :=
  reSubFuel tryAt R (c.length + 1) c

/-- Octal digit characters. -/
def isOctDigitChar (c : Char) : Bool :=
  decide ('0' ≤ c) && decide (c ≤ '7')

/-- ASCII letters (unknown escapes of these are `re.error` in a replacement
template). -/
def isAsciiLetterChar (c : Char) : Bool :=
  (decide ('a' ≤ c) && decide (c ≤ 'z')) || (decide ('A' ≤ c) && decide (c ≤ 'Z'))

/-- The `ESCAPES` table of `re._parser` as used in replacement templates:
`\a \b \f \n \r \t \v \\` produce control characters / a backslash; any
other ASCII letter escape is an error, any other escape is left alone. -/
def escChar (c : Char) : Option Char :=
  if c = 'a' then some (Char.ofNat 7)
  else if c = 'b' then some (Char.ofNat 8)
  else if c = 'f' then some (Char.ofNat 12)
  else if c = 'n' then some (Char.ofNat 10)
  else if c = 'r' then some (Char.ofNat 13)
  else if c = 't' then some (Char.ofNat 9)
  else if c = 'v' then some (Char.ofNat 11)
  else if c = '\\' then some '\\'
  else none

/-- One piece of a parsed replacement template: a literal character or a
reference to group 0 (the whole match); the program's pattern has no capture
groups, so group 0 is the only group a template can validly reference. -/
inductive RePiece : Type
  | ch : Char → RePiece
  | group0 : RePiece
deriving DecidableEq

/-- Digit run with single underscores between digits, as `int()` accepts
inside a `\g<...>` group name (ASCII digits only; the Unicode decimal digits
`int()` additionally accepts are outside this model's character tables and
never occur in this program's data). -/
def digitsUnderGo : Nat → Str → Option Nat
  | acc, [] => some acc
  | acc, '_' :: rest =>
    match rest with
    | d :: rest2 =>
      if isDigitChar d then digitsUnderGo (acc * 10 + (d.toNat - 48)) rest2 else none
    | [] => none
  | acc, c :: rest =>
    if isDigitChar c then digitsUnderGo (acc * 10 + (c.toNat - 48)) rest else none

/-- Value of a nonempty underscore-grouped digit run. -/
def digitsUnder : Str → Option Nat
  | [] => none
  | c :: rest =>
    if isDigitChar c then digitsUnderGo (c.toNat - 48) rest else none

/-- Strip surrounding whitespace, as `int()` does on a group name. -/
def stripWs (s : Str) : Str :=
  ((s.dropWhile Char.isWhitespace).reverse.dropWhile Char.isWhitespace).reverse

/-- Model of `int(name)` for a `\g<name>` group reference: optional
whitespace, optional sign, digits with underscores.  A name this rejects is
either a Python identifier (then the pattern has no such named group:
`IndexError`) or malformed (`re.error: bad character in group name`) — a
crash either way, so `none` is faithful for both. -/
def pyIntName (s : Str) : Option Int :=
  match stripWs s with
  | '+' :: rest => (digitsUnder rest).map (fun n => (n : Int))
  | '-' :: rest => (digitsUnder rest).map (fun n => -(n : Int))
  | t => (digitsUnder t).map (fun n => (n : Int))

/-- Split at the first `>` (the group-name terminator of `\g<...>`); `none`
when there is no `>` (`re.error: missing >`).  Python tokenizes
backslash-pairs while scanning the name, but a name containing a backslash
never parses as an integer, so both readings crash and the raw first-`>`
split is crash-equivalent. -/
def readUpToGt : Str → Option (Str × Str)
  | [] => none
  | c :: rest =>
    if c = '>' then some ([], rest)
    else (readUpToGt rest).map (fun np => (c :: np.1, np.2))

/-- Model of `re._parser.parse_template` for a pattern with no capture
groups (CPython 3.11 semantics), returning `none` exactly where Python
raises: a trailing backslash, `\g` without `<...>`, a `\g<...>` name that is
not integer-zero (the pattern has no other groups), numeric backreferences
`\1`–`\99` (always invalid here), three-digit octal escapes above `0o377`,
and unknown escapes of ASCII letters such as `\d` or `\q`.  `\0` octal
escapes, the `\a \b \f \n \r \t \v \\` table, and left-alone escapes of
non-letters (kept with their backslash) all produce literal characters;
`\g<0>` (also `\g<00>` or `int()`-style variants such as `\g< 0 >`)
produces a group-0 reference.  The fuel only bounds the recursion (every
step consumes at least one character, so `length + 1` always suffices, see
`parseRepl`); running out of fuel is unreachable. -/
def parseReplFuel : Nat → Str → Option (List RePiece)
  | 0, _ => none
  | _ + 1, [] => some []
  | fuel + 1, c :: rest =>
    if c = '\\' then
      match rest with
      | [] => none
      | c2 :: rest2 =>
        if c2 = 'g' then
          match rest2 with
          | '<' :: rest3 =>
            match readUpToGt rest3 with
            | none => none
            | some (name, rest4) =>
              match pyIntName name with
              | some i =>
                if i = 0 then (parseReplFuel fuel rest4).map (fun l => RePiece.group0 :: l)
                else none
              | none => none
          | _ => none
        else if c2 = '0' then
          match rest2 with
          | d1 :: d2 :: rest3 =>
            if isOctDigitChar d1 && isOctDigitChar d2 then
              (parseReplFuel fuel rest3).map
                (fun l => RePiece.ch (Char.ofNat ((d1.toNat - 48) * 8 + (d2.toNat - 48))) :: l)
            else if isOctDigitChar d1 then
              (parseReplFuel fuel (d2 :: rest3)).map
                (fun l => RePiece.ch (Char.ofNat (d1.toNat - 48)) :: l)
            else
              (parseReplFuel fuel rest2).map (fun l => RePiece.ch (Char.ofNat 0) :: l)
          | [d1] =>
            if isOctDigitChar d1 then some [RePiece.ch (Char.ofNat (d1.toNat - 48))]
            else (parseReplFuel fuel rest2).map (fun l => RePiece.ch (Char.ofNat 0) :: l)
          | [] => some [RePiece.ch (Char.ofNat 0)]
        else if isDigitChar c2 then
          match rest2 with
          | d2 :: rest3 =>
            if isDigitChar d2 then
              match rest3 with
              | d3 :: rest4 =>
                if isOctDigitChar c2 && isOctDigitChar d2 && isOctDigitChar d3 then
                  if (c2.toNat - 48) * 64 + (d2.toNat - 48) * 8 + (d3.toNat - 48) ≤ 255 then
                    (parseReplFuel fuel rest4).map (fun l =>
                      RePiece.ch (Char.ofNat
                        ((c2.toNat - 48) * 64 + (d2.toNat - 48) * 8 + (d3.toNat - 48))) :: l)
                  else none
                else none
              | [] => none
            else none
          | [] => none
        else
          match escChar c2 with
          | some ec => (parseReplFuel fuel rest2).map (fun l => RePiece.ch ec :: l)
          | none =>
            if isAsciiLetterChar c2 then none
            else (parseReplFuel fuel rest2).map
              (fun l => RePiece.ch '\\' :: RePiece.ch c2 :: l)
    else (parseReplFuel fuel rest).map (fun l => RePiece.ch c :: l)

/-- Model of `re._parser.parse_template` (see `parseReplFuel`): parse the
replacement template, `none` where Python raises. -/
def parseRepl (r : Str) : Option (List RePiece) :=
  parseReplFuel (r.length + 1) r

/-- Expansion of a parsed template at a match: literal pieces stand for
themselves, the group-0 piece for the matched text. -/
def expandRepl (tpl : List RePiece) (m : Str) : Str :=
  tpl.flatMap (fun p =>
    match p with
    | RePiece.ch c => [c]
    | RePiece.group0 => m)

/-- Model of `replace_section(content, start, end, new_section)`.  When
`pattern.search` fails, the content is returned untouched — Python never
reaches `re.sub`, so the replacement text is not even parsed.  Otherwise
`pattern.sub` first compiles the replacement template
`start + "\n" + new_section + "\n" + end` (backslash escapes processed;
`none` models the raised `re.error`/`IndexError` on a bad template, e.g. a
`\d` brought in by a PR title inside the fragment) and then substitutes its
expansion for every non-overlapping leftmost, non-greedy `start ... end`
span. -/
def replace_section (content s e new_section : Str) : Option Str :=
  match scanMatch (tryAtSec s e) content with
  | none => some content
  | some _ =>
    (parseRepl (s ++ '\n' :: (new_section ++ '\n' :: e))).map
      (fun tpl => reSub (tryAtSec s e) (expandRepl tpl) content)

/-- The contributions section markers. -/
def SECTION_START : Str := ("<!-- OSS_CONTRIBUTIONS_START -->").toList

/-- End marker of the contributions section. -/
def SECTION_END : Str := ("<!-- OSS_CONTRIBUTIONS_END -->").toList

/-- Start marker of the languages section. -/
def LANG_START : Str := ("<!-- TOP_LANGUAGES_START -->").toList

/-- End marker of the languages section. -/
def LANG_END : Str := ("<!-- TOP_LANGUAGES_END -->").toList

/-- The literal head of the timestamp pattern `r"Last updated: .+?-->"`. -/
def tsLit1 : Str := ("Last updated: ").toList

/-- The literal tail of the timestamp pattern. -/
def tsLit2 : Str := ("-->").toList

/-- Matcher for `.+?-->` without `re.DOTALL`: the shortest nonempty run of
non-newline characters followed by the literal `-->`. -/
def tsGap : Str → Option (Str × Str)
  | [] => none
  | ch :: rest =>
    if ch = '\n' then none
    else if tsLit2.isPrefixOf rest then some ([ch], rest.drop 3)
    else (tsGap rest).map (fun gp => (ch :: gp.1, gp.2))

/-- Position-local matcher for the timestamp pattern. -/
def tsTry (c : Str) : Option (Str × Str) :=
  if tsLit1.isPrefixOf c then
    (tsGap (c.drop tsLit1.length)).map (fun gp => (tsLit1 ++ gp.1 ++ tsLit2, gp.2))
  else none

/-- The replacement text `f"Last updated: {now} -->"`. -/
def tsRepl (now : Str) : Str :=
  ("Last updated: ").toList ++ now ++ (" -->").toList

/-- The timestamp substitution of `main` (lines 251-256).  The replacement
`f"Last updated: {now} -->"` is built from `strftime("%b %d, %Y")` output and
so never contains a backslash; `re.sub` then takes its literal fast path
(template processing is only entered when the replacement contains `\\`),
which this constant replacement models exactly. -/
def tsSub (now c : Str) : Str :=
  reSub tsTry (fun _ => tsRepl now) c

/-- The document-patching step of `main` (lines 243-259): replace the
contributions section, then the languages section, then the timestamp;
`none` models a run aborted by a `re.error` from a bad replacement
template. -/
def patchStep (content contribMd langMd now : Str) : Option Str :=
  (replace_section content SECTION_START SECTION_END contribMd).bind
    (fun c1 => (replace_section c1 LANG_START LANG_END langMd).map
      (fun c2 => tsSub now c2))

/-- A string with no nonempty proper border: no nonempty proper suffix of `e`
is also a prefix of `e`.  The concrete HTML-comment markers all have this
property. -/
def Borderfree (e : Str) : Prop :=
  ∀ d < e.length, 0 < d → e.drop d ≠ e.take (e.length - d)

instance : DecidablePred Borderfree := fun e => by
  unfold Borderfree; infer_instance

/-! ### Basic helper lemmas -/

lemma isPrefixOf_true (u : Str) : ∀ v : Str, u.isPrefixOf v = true ↔ ∃ t, u ++ t = v := by
  induction u with
  | nil => intro v; simp [List.isPrefixOf]
  | cons a as ih =>
    intro v
    cases v with
    | nil => simp [List.isPrefixOf]
    | cons b bs =>
      simp only [List.isPrefixOf, Bool.and_eq_true, beq_iff_eq, ih bs]
      constructor
      · rintro ⟨rfl, t, rfl⟩; exact ⟨t, rfl⟩
      · rintro ⟨t, h⟩
        injection h with h1 h2
        exact ⟨h1, t, h2⟩

/-! ### C6: the API client error branch -/

/-- Claim C6: on an HTTP error status the `api` function logs a diagnostic
containing the status code and the URL to standard error, and substitutes an
empty list exactly when the URL contains the search indicator, an empty
mapping otherwise; the handler is total (it never re-raises). -/
theorem api_error_shape_C6 (url : Str) (code : Nat) :
    (natToStr code <:+: apiErrorLog code url) ∧
    (url <:+: apiErrorLog code url) ∧
    (apiErrorResult url = ApiEmpty.list ↔ ("search").toList <:+: url) ∧
    (apiErrorResult url = ApiEmpty.map ↔ ¬ (("search").toList <:+: url)) := by
  refine ⟨⟨("API error ").toList, (": ").toList ++ url, by simp [apiErrorLog]⟩,
    ⟨("API error ").toList ++ natToStr code ++ (": ").toList, [], by simp [apiErrorLog]⟩,
    ?_, ?_⟩
  · unfold apiErrorResult
    split
    · simp_all
    · simp_all
  · unfold apiErrorResult
    split
    · simp_all
    · simp_all

/-! ### Collector lemmas -/

lemma collectGo_length (owned : List Str) (info : Str → RepoInfo) :
    ∀ (prs : List RawPR) (acc l : List Contribution),
      acc.length < MAX_PRS → collectGo owned info prs acc = some l →
      l.length ≤ MAX_PRS := by
  intro prs
  induction prs with
  | nil =>
    intro acc l hlt h
    simp only [collectGo] at h
    cases h
    exact Nat.le_of_lt hlt
  | cons pr rest ih =>
    intro acc l hlt h
    simp only [collectGo] at h
    cases hstep : toStep owned info pr with
    | none => rw [hstep] at h; cases h
    | some o =>
      cases o with
      | none => rw [hstep] at h; exact ih acc l hlt h
      | some c =>
        rw [hstep] at h
        dsimp only at h
        by_cases hc : MAX_PRS ≤ (acc ++ [c]).length
        · rw [if_pos hc] at h
          cases h
          simpa using hlt
        · rw [if_neg hc] at h
          exact ih (acc ++ [c]) l (Nat.lt_of_not_le hc) h

lemma collectGo_mem (owned : List Str) (info : Str → RepoInfo) :
    ∀ (prs : List RawPR) (acc l : List Contribution),
      collectGo owned info prs acc = some l →
      ∀ c ∈ l, c ∈ acc ∨ ∃ pr ∈ prs, toStep owned info pr = some (some c) := by
  intro prs
  induction prs with
  | nil =>
    intro acc l h c hc
    simp only [collectGo] at h
    cases h
    exact Or.inl hc
  | cons pr rest ih =>
    intro acc l h c hc
    simp only [collectGo] at h
    cases hstep : toStep owned info pr with
    | none => rw [hstep] at h; cases h
    | some o =>
      cases o with
      | none =>
        rw [hstep] at h
        rcases ih acc l h c hc with h1 | ⟨pr', hpr', h2⟩
        · exact Or.inl h1
        · exact Or.inr ⟨pr', List.mem_cons_of_mem _ hpr', h2⟩
      | some c' =>
        rw [hstep] at h
        dsimp only at h
        by_cases hcap : MAX_PRS ≤ (acc ++ [c']).length
        · rw [if_pos hcap] at h
          cases h
          rcases List.mem_append.mp hc with h1 | h1
          · exact Or.inl h1
          · simp only [List.mem_singleton] at h1
            subst h1
            exact Or.inr ⟨pr, List.mem_cons_self _ _, hstep⟩
        · rw [if_neg hcap] at h
          rcases ih (acc ++ [c']) l h c hc with h1 | ⟨pr', hpr', h2⟩
          · rcases List.mem_append.mp h1 with h2 | h2
            · exact Or.inl h2
            · simp only [List.mem_singleton] at h2
              subst h2
              exact Or.inr ⟨pr, List.mem_cons_self _ _, hstep⟩
          · exact Or.inr ⟨pr', List.mem_cons_of_mem _ hpr', h2⟩

lemma toStep_keep (owned : List Str) (info : Str → RepoInfo) (pr : RawPR)
    (c : Contribution) (h : toStep owned info pr = some (some c)) :
    extract_repo pr.html_url = some c.repo ∧ c.repo ∉ owned ∧
      fmtMerged pr.merged_at = some c.merged_at := by
  unfold toStep at h
  cases hrep : extract_repo pr.html_url with
  | none => rw [hrep] at h; cases h
  | some repo =>
    rw [hrep] at h
    dsimp only at h
    by_cases hmem : repo = [] ∨ repo ∈ owned
    · rw [if_pos hmem] at h; cases h
    · rw [if_neg hmem] at h
      cases hfmt : fmtMerged pr.merged_at with
      | none => rw [hfmt] at h; cases h
      | some ma =>
        rw [hfmt] at h
        cases h
        push_neg at hmem
        exact ⟨rfl, hmem.2, rfl⟩

lemma sortContribs_perm (l : List Contribution) : (sortContribs l).Perm l :=
  List.perm_insertionSort contribGE l

/-! ### C1: the cap invariant -/

/-- Claim C1: whenever the run completes, the collected contributions list
built by the filtering loop of `main` (and hence also the final sorted list)
never contains more than `MAX_PRS = 20` entries, for every sequence of raw
search results and every exclusion set. -/
theorem collected_cap_C1 (owned : List Str) (info : Str → RepoInfo)
    (prs : List RawPR) (l : List Contribution)
    (h : mainCollect owned info prs = some l) : l.length ≤ MAX_PRS := by
  unfold mainCollect at h
  cases h0 : collectExternal owned info prs with
  | none => rw [h0] at h; cases h
  | some l0 =>
    rw [h0] at h
    simp only [Option.map_some'] at h
    cases h
    rw [(sortContribs_perm l0).length_eq]
    exact collectGo_length owned info prs [] l0 (by simp [MAX_PRS]) h0

/-- Witness for C1 at a concrete input: two external items collapse to a
two-element list, within the cap. -/
theorem collected_cap_C1_witness :
    (mainCollect [] (fun _ => ⟨0, none⟩)
        [⟨("///a/b").toList, ("t").toList, 1, ("2023-01-15T10:30:00Z").toList⟩,
         ⟨("///c/d").toList, ("u").toList, 2, []⟩] = some
      [⟨("a/b").toList, ("t").toList, 1, ("///a/b").toList, ("Jan 2023").toList, 0, none⟩,
       ⟨("c/d").toList, ("u").toList, 2, ("///c/d").toList, emDash, 0, none⟩]) ∧
    ([⟨("a/b").toList, ("t").toList, 1, ("///a/b").toList, ("Jan 2023").toList, 0, none⟩,
      (⟨("c/d").toList, ("u").toList, 2, ("///c/d").toList, emDash, 0, none⟩ :
        Contribution)]).length ≤ MAX_PRS := by
  refine ⟨by decide, ?_⟩
  exact collected_cap_C1 [] (fun _ => ⟨0, none⟩)
    [⟨("///a/b").toList, ("t").toList, 1, ("2023-01-15T10:30:00Z").toList⟩,
     ⟨("///c/d").toList, ("u").toList, 2, []⟩] _ (by decide)

/-! ### C2: the exclusion filter -/

/-- Claim C2: no contribution whose target repository (as derived by
`extract_repo` from the item's URL path segments 3 and 4) lies in the
exclusion set ever appears in the final collected list, and every collected
entry stems from an item with a parseable URL. -/
theorem exclusion_filter_C2 (owned : List Str) (info : Str → RepoInfo)
    (prs : List RawPR) (l : List Contribution)
    (h : mainCollect owned info prs = some l) :
    ∀ c ∈ l, c.repo ∉ owned ∧ ∃ pr ∈ prs, extract_repo pr.html_url = some c.repo := by
  intro c hc
  unfold mainCollect at h
  cases h0 : collectExternal owned info prs with
  | none => rw [h0] at h; cases h
  | some l0 =>
    rw [h0] at h
    simp only [Option.map_some'] at h
    cases h
    have hc0 : c ∈ l0 := (sortContribs_perm l0).mem_iff.mp hc
    rcases collectGo_mem owned info prs [] l0 h0 c hc0 with h1 | ⟨pr, hpr, h2⟩
    · cases h1
    · obtain ⟨hrep, hnot, _⟩ := toStep_keep owned info pr c h2
      exact ⟨hnot, pr, hpr, hrep⟩

/-- Witness for C2 at a concrete input: a PR against an owned repository is
filtered out, the surviving entry is external. -/
theorem exclusion_filter_C2_witness :
    (⟨("a/b").toList, ("t").toList, 1, ("///a/b").toList, emDash, 0,
        none⟩ : Contribution).repo ∉ [("x/y").toList] ∧
    ∃ pr ∈ [⟨("///x/y").toList, ("s").toList, 7, []⟩,
        (⟨("///a/b").toList, ("t").toList, 1, []⟩ : RawPR)],
      extract_repo pr.html_url = some ("a/b").toList := by
  have h := exclusion_filter_C2 [("x/y").toList] (fun _ => ⟨0, none⟩)
    [⟨("///x/y").toList, ("s").toList, 7, []⟩,
     ⟨("///a/b").toList, ("t").toList, 1, []⟩]
    [⟨("a/b").toList, ("t").toList, 1, ("///a/b").toList, emDash, 0, none⟩]
    (by decide)
    ⟨("a/b").toList, ("t").toList, 1, ("///a/b").toList, emDash, 0, none⟩
    (by decide)
  exact h

/-! ### C10: the cap is applied before the sort -/

/-- The contribution an item yields (if any), ignoring the cap: the
`filterMap` view of the loop body. -/
def keepFn (owned : List Str) (info : Str → RepoInfo) (pr : RawPR) :
    Option Contribution :=
  match toStep owned info pr with
  | some (some c) => some c
  | _ => none

lemma collectGo_take (owned : List Str) (info : Str → RepoInfo) :
    ∀ (prs : List RawPR) (acc : List Contribution),
      (∀ pr ∈ prs, toStep owned info pr ≠ none) → acc.length < MAX_PRS →
      collectGo owned info prs acc =
        some (acc ++ (prs.filterMap (keepFn owned info)).take (MAX_PRS - acc.length)) := by
  intro prs
  induction prs with
  | nil => intro acc _ _; simp [collectGo]
  | cons pr rest ih =>
    intro acc hnc hlt
    simp only [collectGo]
    cases hstep : toStep owned info pr with
    | none => exact absurd hstep (hnc pr (List.mem_cons_self _ _))
    | some o =>
      cases o with
      | none =>
        dsimp only
        rw [ih acc (fun q hq => hnc q (List.mem_cons_of_mem _ hq)) hlt]
        simp [List.filterMap_cons, keepFn, hstep]
      | some c =>
        dsimp only
        have hfm : (pr :: rest).filterMap (keepFn owned info) =
            c :: rest.filterMap (keepFn owned info) := by
          simp [List.filterMap_cons, keepFn, hstep]
        by_cases hcap : MAX_PRS ≤ (acc ++ [c]).length
        · rw [if_pos hcap]
          have hlen : MAX_PRS - acc.length = 1 := by
            simp only [List.length_append, List.length_singleton] at hcap
            omega
          rw [hfm, hlen]
          simp
        · rw [if_neg hcap]
          have hlt' : (acc ++ [c]).length < MAX_PRS := Nat.lt_of_not_le hcap
          rw [ih (acc ++ [c]) (fun q hq => hnc q (List.mem_cons_of_mem _ hq)) hlt']
          rw [hfm]
          have hgap : MAX_PRS - acc.length = (MAX_PRS - (acc ++ [c]).length) + 1 := by
            simp only [List.length_append, List.length_singleton] at hcap ⊢
            omega
          rw [hgap]
          simp [List.take_succ_cons]

/-- Claim C10: the 20-item cap is applied during the filtering pass, before
the merge-date sort — the retained contributions are the first at-most-20
items passing the filter, in the raw search order, and only those are then
reordered; consequently the published list need not contain the most recently
merged external PR (second conjunct: a run with 21 external items whose last
item is the only one with a 2024 merge date publishes 20 dateless entries and
drops the dated one). -/
theorem cap_before_sort_C10 :
    (∀ (owned : List Str) (info : Str → RepoInfo) (prs : List RawPR),
      (∀ pr ∈ prs, toStep owned info pr ≠ none) →
      collectExternal owned info prs =
        some ((prs.filterMap (keepFn owned info)).take MAX_PRS) ∧
      mainCollect owned info prs =
        some (sortContribs ((prs.filterMap (keepFn owned info)).take MAX_PRS))) ∧
    (mainCollect [] (fun _ => ⟨0, none⟩)
        (List.replicate 20 ⟨("///a/b").toList, ("t").toList, 1, []⟩ ++
          [⟨("///c/d").toList, ("u").toList, 2, ("2024-12-25T00:00:00Z").toList⟩]) =
      some (List.replicate 20
        ⟨("a/b").toList, ("t").toList, 1, ("///a/b").toList, emDash, 0, none⟩) ∧
      (∀ c ∈ List.replicate 20
          (⟨("a/b").toList, ("t").toList, 1, ("///a/b").toList, emDash, 0,
            none⟩ : Contribution), c.merged_at ≠ ("Dec 2024").toList) ∧
      keepFn [] (fun _ => ⟨0, none⟩)
          ⟨("///c/d").toList, ("u").toList, 2, ("2024-12-25T00:00:00Z").toList⟩ =
        some ⟨("c/d").toList, ("u").toList, 2, ("///c/d").toList,
          ("Dec 2024").toList, 0, none⟩) := by
  constructor
  · intro owned info prs hnc
    have h := collectGo_take owned info prs [] hnc (by simp [MAX_PRS])
    simp only [List.nil_append, Nat.sub_zero, List.length_nil] at h
    refine ⟨h, ?_⟩
    unfold mainCollect
    rw [show collectExternal owned info prs = collectGo owned info prs [] from rfl, h]
    rfl
  · exact ⟨by decide, by decide, by decide⟩

/-- Witness for C10 at a concrete input: one skipped and one kept item. -/
theorem cap_before_sort_C10_witness :
    collectExternal [("x/y").toList] (fun _ => ⟨0, none⟩)
        [⟨("///x/y").toList, ("s").toList, 7, []⟩,
         ⟨("///a/b").toList, ("t").toList, 1, []⟩] =
      some (([⟨("///x/y").toList, ("s").toList, 7, []⟩,
          (⟨("///a/b").toList, ("t").toList, 1, []⟩ : RawPR)].filterMap
            (keepFn [("x/y").toList] (fun _ => ⟨0, none⟩))).take MAX_PRS) :=
  (cap_before_sort_C10.1 [("x/y").toList] (fun _ => ⟨0, none⟩)
    [⟨("///x/y").toList, ("s").toList, 7, []⟩,
     ⟨("///a/b").toList, ("t").toList, 1, []⟩] (by decide)).1

/-! ### Date facts for the sort invariant -/

lemma digitChar_digit (n : Nat) (h : n < 10) : isDigitChar (Nat.digitChar n) = true := by
  interval_cases n <;> decide

lemma natToStrAux_ne_nil (fuel n : Nat) (h : 0 < fuel) : natToStrAux fuel n ≠ [] := by
  cases fuel with
  | zero => omega
  | succ f => simp only [natToStrAux]; split <;> simp

lemma natToStrAux_digits (fuel : Nat) :
    ∀ n, (natToStrAux fuel n).all isDigitChar = true := by
  induction fuel with
  | zero => intro n; rfl
  | succ f ih =>
    intro n
    simp only [natToStrAux]
    split
    · simpa using digitChar_digit n (by assumption)
    · rw [List.all_append]
      simp [ih (n / 10), digitChar_digit (n % 10) (Nat.mod_lt n (by norm_num))]

lemma natToStr_ne_nil (n : Nat) : natToStr n ≠ [] :=
  natToStrAux_ne_nil _ _ (Nat.succ_pos n)

lemma natToStr_digits (n : Nat) : (natToStr n).all isDigitChar = true :=
  natToStrAux_digits _ n

lemma pyToNatOpt_isSome_natToStr (n : Nat) : (pyToNatOpt (natToStr n)).isSome := by
  unfold pyToNatOpt
  rw [if_pos ⟨natToStr_ne_nil n, natToStr_digits n⟩]
  rfl

lemma not_ws_of_digit (c : Char) (h : isDigitChar c = true) : c.isWhitespace = false := by
  simp only [isDigitChar, Bool.and_eq_true, decide_eq_true_eq] at h
  obtain ⟨h1, _⟩ := h
  have ha : c ≠ ' ' := by rintro rfl; exact absurd h1 (by decide)
  have hb : c ≠ '\t' := by rintro rfl; exact absurd h1 (by decide)
  have hc : c ≠ '\x0d' := by rintro rfl; exact absurd h1 (by decide)
  have hd : c ≠ '\n' := by rintro rfl; exact absurd h1 (by decide)
  simp [Char.isWhitespace, ha, hb, hc, hd]

lemma splitWs_ne_nil (s : Str) : splitWs s ≠ [] := by
  induction s with
  | nil => simp [splitWs]
  | cons ch rest ih =>
    simp only [splitWs]
    rcases hsw : splitWs rest with _ | ⟨hd, tl⟩
    · simp
    · dsimp only
      split <;> simp

lemma splitWs_cons_ws (ch : Char) (s : Str) (h : ch.isWhitespace = true) :
    splitWs (ch :: s) = [] :: splitWs s := by
  simp only [splitWs]
  rcases hsw : splitWs s with _ | ⟨hd, tl⟩
  · exact absurd hsw (splitWs_ne_nil s)
  · simp [h]

lemma splitWs_cons_nws (ch : Char) (s : Str) (h : ch.isWhitespace = false) :
    ∃ hd tl, splitWs s = hd :: tl ∧ splitWs (ch :: s) = (ch :: hd) :: tl := by
  rcases hsw : splitWs s with _ | ⟨hd, tl⟩
  · exact absurd hsw (splitWs_ne_nil s)
  · refine ⟨hd, tl, rfl, ?_⟩
    simp only [splitWs]
    rw [hsw]
    simp [h]

lemma splitWs_nws (s : Str) (h : ∀ c ∈ s, c.isWhitespace = false) : splitWs s = [s] := by
  induction s with
  | nil => rfl
  | cons ch rest ih =>
    obtain ⟨hd, tl, h1, h2⟩ := splitWs_cons_nws ch rest (h ch (List.mem_cons_self _ _))
    rw [ih (fun c hc => h c (List.mem_cons_of_mem _ hc))] at h1
    injection h1 with e1 e2
    subst e1; subst e2
    exact h2

lemma splitWs_append_nws (u : Str) (s : Str) (h : ∀ c ∈ u, c.isWhitespace = false) :
    ∀ hd tl, splitWs s = hd :: tl → splitWs (u ++ s) = (u ++ hd) :: tl := by
  induction u with
  | nil => intro hd tl h1; simpa using h1
  | cons ch urest ih =>
    intro hd tl h1
    have h2 := ih (fun c hc => h c (List.mem_cons_of_mem _ hc)) hd tl h1
    obtain ⟨hd2, tl2, e1, e2⟩ :=
      splitWs_cons_nws ch (urest ++ s) (h ch (List.mem_cons_self _ _))
    rw [h2] at e1
    injection e1 with f1 f2
    subst f1; subst f2
    rw [List.cons_append, e2]
    simp

lemma pySplit_pair (u v : Str) (hu : u ≠ []) (hv : v ≠ [])
    (hu2 : ∀ c ∈ u, c.isWhitespace = false) (hv2 : ∀ c ∈ v, c.isWhitespace = false) :
    pySplit (u ++ ' ' :: v) = [u, v] := by
  have h1 : splitWs v = [v] := splitWs_nws v hv2
  have h2 : splitWs (' ' :: v) = [] :: [v] := by
    rw [splitWs_cons_ws ' ' v (by decide), h1]
  have h3 : splitWs (u ++ ' ' :: v) = (u ++ []) :: [v] :=
    splitWs_append_nws u (' ' :: v) hu2 [] [v] h2
  unfold pySplit
  rw [h3]
  simp [hu, hv]

lemma parseIso_bounds (s : Str) (y m : Nat) (h : parseIso s = some (y, m)) :
    1 ≤ y ∧ 1 ≤ m ∧ m ≤ 12 := by
  unfold parseIso at h
  split at h
  · dsimp only at h
    split at h
    · split at h
      · rename_i hcond
        injection h with h1
        injection h1 with hy hm
        subst hy; subst hm
        exact ⟨hcond.1, hcond.2.1, hcond.2.2.1⟩
      · cases h
    · cases h
  · cases h

/-- Shape of every `merged_at` string a collected contribution can carry:
the em-dash placeholder or a rendered month-year pair. -/
def dateOk (s : Str) : Prop :=
  s = emDash ∨ ∃ y m, 1 ≤ y ∧ 1 ≤ m ∧ m ≤ 12 ∧ s = fmtYM y m

lemma fmtMerged_dateOk (raw ma : Str) (h : fmtMerged raw = some ma) : dateOk ma := by
  unfold fmtMerged at h
  by_cases h0 : raw = []
  · rw [if_pos h0] at h
    injection h with h1
    exact Or.inl h1.symm
  · rw [if_neg h0] at h
    cases hp : parseIso raw with
    | none => rw [hp] at h; cases h
    | some p =>
      rw [hp] at h
      simp only [Option.map_some'] at h
      injection h with h1
      obtain ⟨b1, b2, b3⟩ := parseIso_bounds raw p.1 p.2 (by rw [hp])
      exact Or.inr ⟨p.1, p.2, b1, b2, b3, h1.symm⟩

lemma mainCollect_dateOk (owned : List Str) (info : Str → RepoInfo)
    (prs : List RawPR) (l : List Contribution)
    (h : mainCollect owned info prs = some l) : ∀ c ∈ l, dateOk c.merged_at := by
  intro c hc
  unfold mainCollect at h
  cases h0 : collectExternal owned info prs with
  | none => rw [h0] at h; cases h
  | some l0 =>
    rw [h0] at h
    simp only [Option.map_some'] at h
    cases h
    have hc0 : c ∈ l0 := (sortContribs_perm l0).mem_iff.mp hc
    rcases collectGo_mem owned info prs [] l0 h0 c hc0 with h1 | ⟨pr, _, h2⟩
    · cases h1
    · obtain ⟨_, _, hfmt⟩ := toStep_keep owned info pr c h2
      exact fmtMerged_dateOk pr.merged_at c.merged_at hfmt

/-- A formatted date that parses as a (month, year) pair through the fixed
month table: two whitespace-separated parts, a known month name, a numeric
year. -/
def parseableDate (s : Str) : Bool :=
  match pySplit s with
  | [a, b] => decide (monthOrderOf a ≠ 0) && (pyToNatOpt b).isSome
  | _ => false

lemma monthAbbrev_ne_nil (m : Nat) (h1 : 1 ≤ m) (h2 : m ≤ 12) :
    monthAbbrev m ≠ [] := by
  interval_cases m <;> decide

lemma monthAbbrev_nws (m : Nat) (h1 : 1 ≤ m) (h2 : m ≤ 12) :
    ∀ c ∈ monthAbbrev m, c.isWhitespace = false := by
  interval_cases m <;> decide

lemma monthOrderOf_abbrev (m : Nat) (h1 : 1 ≤ m) (h2 : m ≤ 12) :
    monthOrderOf (monthAbbrev m) = m := by
  interval_cases m <;> decide

lemma pySplit_fmtYM (y m : Nat) (h1 : 1 ≤ m) (h2 : m ≤ 12) :
    pySplit (fmtYM y m) = [monthAbbrev m, natToStr y] := by
  unfold fmtYM
  exact pySplit_pair _ _ (monthAbbrev_ne_nil m h1 h2) (natToStr_ne_nil y)
    (monthAbbrev_nws m h1 h2)
    (fun c hc => not_ws_of_digit c (List.all_eq_true.mp (natToStr_digits y) c hc))

lemma parseableDate_fmtYM (y m : Nat) (h1 : 1 ≤ m) (h2 : m ≤ 12) :
    parseableDate (fmtYM y m) = true := by
  unfold parseableDate
  rw [pySplit_fmtYM y m h1 h2]
  simp only [monthOrderOf_abbrev m h1 h2, pyToNatOpt_isSome_natToStr y,
    Bool.and_eq_true, decide_eq_true_eq]
  exact ⟨by omega, trivial⟩

lemma sort_key_not_parseable (c : Contribution) (hd : dateOk c.merged_at)
    (hp : parseableDate c.merged_at = false) : sort_key c = (0, 0) := by
  rcases hd with h | ⟨y, m, _, b2, b3, h⟩
  · unfold sort_key
    rw [h]
    decide
  · rw [h] at hp
    rw [parseableDate_fmtYM y m b2 b3] at hp
    cases hp

lemma sort_key_snd_pos (c : Contribution) (hp : parseableDate c.merged_at = true) :
    (sort_key c).2 ≠ 0 := by
  unfold parseableDate at hp
  unfold sort_key
  rcases hsp : pySplit c.merged_at with _ | ⟨a, tl⟩
  · rw [hsp] at hp; cases hp
  · rcases tl with _ | ⟨b, tl2⟩
    · rw [hsp] at hp; cases hp
    · rcases tl2 with _ | ⟨x, tl3⟩
      · rw [hsp] at hp
        simp only [Bool.and_eq_true, decide_eq_true_eq] at hp
        simpa using hp.1
      · rw [hsp] at hp; cases hp

/-! ### C3: the sort invariant -/

/-- Claim C3: in the final ordering produced by `main`, keys never increase
along the list (so an entry with the lexicographically greater (year, month)
pair appears strictly earlier); every entry whose formatted date does not
parse through the month table carries key (0, 0); and a parseable entry never
appears after an unparseable one. -/
theorem sort_invariant_C3 (owned : List Str) (info : Str → RepoInfo)
    (prs : List RawPR) (l : List Contribution)
    (h : mainCollect owned info prs = some l) :
    (∀ i j : Fin l.length, i < j →
      lexLe (sort_key (l.get j)) (sort_key (l.get i))) ∧
    (∀ c ∈ l, parseableDate c.merged_at = false → sort_key c = (0, 0)) ∧
    (∀ i j : Fin l.length, i < j →
      parseableDate ((l.get j).merged_at) = true →
      parseableDate ((l.get i).merged_at) = true) := by
  have hdate : ∀ c ∈ l, dateOk c.merged_at := mainCollect_dateOk owned info prs l h
  have hsorted : List.Sorted contribGE l := by
    unfold mainCollect at h
    cases h0 : collectExternal owned info prs with
    | none => rw [h0] at h; cases h
    | some l0 =>
      rw [h0] at h
      simp only [Option.map_some'] at h
      cases h
      exact List.sorted_insertionSort contribGE l0
  have hpair : ∀ i j : Fin l.length, i < j →
      lexLe (sort_key (l.get j)) (sort_key (l.get i)) := by
    intro i j hij
    exact hsorted.rel_get_of_lt hij
  have hzero : ∀ c ∈ l, parseableDate c.merged_at = false → sort_key c = (0, 0) := by
    intro c hc hp
    exact sort_key_not_parseable c (hdate c hc) hp
  refine ⟨hpair, hzero, ?_⟩
  intro i j hij hpj
  by_contra hpi
  have hpi' : parseableDate ((l.get i).merged_at) = false := by
    cases hb : parseableDate ((l.get i).merged_at)
    · rfl
    · exact absurd hb hpi
  have hki : sort_key (l.get i) = (0, 0) := hzero _ (l.get_mem _ _) hpi'
  have hle := hpair i j hij
  rw [hki] at hle
  rcases hle with h1 | ⟨h1, h2⟩
  · exact Nat.not_lt_zero _ h1
  · exact sort_key_snd_pos (l.get j) hpj (Nat.le_zero.mp h2)

/-- Witness for C3 at a concrete input: the February 2024 entry is placed
before the January 2023 entry. -/
theorem sort_invariant_C3_witness :
    lexLe
      (sort_key ⟨("a/b").toList, ("t").toList, 1, ("///a/b").toList,
        ("Jan 2023").toList, 0, none⟩)
      (sort_key ⟨("c/d").toList, ("u").toList, 2, ("///c/d").toList,
        ("Feb 2024").toList, 0, none⟩) := by
  have h := sort_invariant_C3 [] (fun _ => ⟨0, none⟩)
    [⟨("///a/b").toList, ("t").toList, 1, ("2023-01-15T10:30:00Z").toList⟩,
     ⟨("///c/d").toList, ("u").toList, 2, ("2024-02-10T00:00:00Z").toList⟩]
    [⟨("c/d").toList, ("u").toList, 2, ("///c/d").toList, ("Feb 2024").toList, 0, none⟩,
     ⟨("a/b").toList, ("t").toList, 1, ("///a/b").toList, ("Jan 2023").toList, 0, none⟩]
    (by decide)
  exact h.1 ⟨0, by decide⟩ ⟨1, by decide⟩ (by decide)

/-! ### C7: the language aggregator -/

lemma bumpLang_lookup_getD (m : List (Str × Nat)) (k2 k : Str) (v : Nat) :
    (((bumpLang m k v).lookup k2).getD 0) =
      if k2 = k then ((m.lookup k2).getD 0) + v else (m.lookup k2).getD 0 := by
  induction m with
  | nil =>
    by_cases h : k2 = k
    · have hb : (k2 == k) = true := beq_iff_eq.mpr h
      simp [bumpLang, List.lookup, hb, h]
    · have hb : (k2 == k) = false := beq_eq_false_iff_ne.mpr h
      simp [bumpLang, List.lookup, hb, h]
  | cons p rest ih =>
    by_cases h1 : p.1 = k
    · by_cases h2 : k2 = p.1
      · have hb : (k2 == p.1) = true := beq_iff_eq.mpr h2
        simp [bumpLang, List.lookup, h1, hb, h2.trans h1]
      · have hb : (k2 == p.1) = false := beq_eq_false_iff_ne.mpr h2
        have h3 : k2 ≠ k := fun e => h2 (e.trans h1.symm)
        have hb2 : (k2 == k) = false := beq_eq_false_iff_ne.mpr h3
        simp [bumpLang, List.lookup, h1, hb, hb2, h3]
    · by_cases h2 : k2 = p.1
      · have hb : (k2 == p.1) = true := beq_iff_eq.mpr h2
        have h3 : k2 ≠ k := by rw [h2]; exact h1
        simp [bumpLang, List.lookup, h1, hb, h3]
      · have hb : (k2 == p.1) = false := beq_eq_false_iff_ne.mpr h2
        simp [bumpLang, List.lookup, h1, hb, ih]

/-- Total byte count recorded for a key across a flat list of (language,
bytes) pairs. -/
def totalFor (k : Str) (ps : List (Str × Nat)) : Nat :=
  ((ps.filter (fun p => p.1 = k)).map (fun p => p.2)).sum

lemma foldl_bump_lookup (k : Str) :
    ∀ (ps : List (Str × Nat)) (m : List (Str × Nat)),
      (((ps.foldl (fun m2 p => bumpLang m2 p.1 p.2) m).lookup k).getD 0) =
        ((m.lookup k).getD 0) + totalFor k ps := by
  intro ps
  induction ps with
  | nil => intro m; simp [totalFor]
  | cons p rest ih =>
    intro m
    simp only [List.foldl_cons]
    rw [ih (bumpLang m p.1 p.2), bumpLang_lookup_getD]
    by_cases h : k = p.1
    · have h' : p.1 = k := h.symm
      simp only [if_pos h, totalFor, List.filter_cons, h', decide_True,
        if_true, List.map_cons, List.sum_cons]
      omega
    · have h' : ¬ (p.1 = k) := fun e => h e.symm
      simp [totalFor, List.filter_cons, h, h']

/-- The flat list of (language, bytes) pairs the aggregation visits: the
languages of every non-fork repository, in order. -/
def flatPairs (repos : List OwnedRepo) : List (Str × Nat) :=
  (repos.filter (fun r => !r.fork)).flatMap (fun r => r.languages)

lemma accLangs_eq_flat (repos : List OwnedRepo) :
    accLangs repos = (flatPairs repos).foldl (fun m p => bumpLang m p.1 p.2) [] := by
  suffices h : ∀ m, repos.foldl
      (fun m r => if r.fork then m
        else r.languages.foldl (fun m2 p => bumpLang m2 p.1 p.2) m) m =
      (flatPairs repos).foldl (fun m p => bumpLang m p.1 p.2) m from h []
  induction repos with
  | nil => intro m; simp [flatPairs]
  | cons r rest ih =>
    intro m
    by_cases hf : r.fork
    · simp only [List.foldl_cons, if_pos hf, flatPairs, List.filter_cons]
      simp only [flatPairs] at ih
      simp [hf, ih]
    · simp only [List.foldl_cons, if_neg hf, flatPairs, List.filter_cons]
      simp only [flatPairs] at ih
      simp [hf, ih, List.foldl_append]

lemma accLangs_lookup (repos : List OwnedRepo) (k : Str) :
    (((accLangs repos).lookup k).getD 0) = totalFor k (flatPairs repos) := by
  rw [accLangs_eq_flat, foldl_bump_lookup]
  simp [List.lookup]

lemma accLangs_skip_forks (repos : List OwnedRepo) :
    accLangs (repos.filter (fun r => !r.fork)) = accLangs repos := by
  unfold accLangs
  suffices h : ∀ m, (repos.filter (fun r => !r.fork)).foldl
      (fun m r => if r.fork then m
        else r.languages.foldl (fun m2 p => bumpLang m2 p.1 p.2) m) m =
      repos.foldl
        (fun m r => if r.fork then m
          else r.languages.foldl (fun m2 p => bumpLang m2 p.1 p.2) m) m from h []
  induction repos with
  | nil => intro m; simp
  | cons r rest ih =>
    intro m
    by_cases hf : r.fork
    · simp [List.filter_cons, hf, ih]
    · simp [List.filter_cons, hf, ih]

/-- Claim C7: the language aggregator ignores forked repositories, sums
per-language byte counts over the rest (second conjunct, via `totalFor`),
retains at most the top 8 languages in descending order of raw byte count
(hence descending fractions), yields all-zero shares when there are no bytes
at all (the `or 1` floor of the divisor), and on byte counts A ↦ 300,
B ↦ 100, C ↦ 600 produces C, A, B with fractions 3/5, 3/10, 1/10. -/
theorem top_languages_C7 :
    (∀ repos : List OwnedRepo,
      get_top_languages (repos.filter (fun r => !r.fork)) =
        get_top_languages repos) ∧
    (∀ (repos : List OwnedRepo) (k : Str),
      (((accLangs repos).lookup k).getD 0) = totalFor k (flatPairs repos)) ∧
    (∀ repos : List OwnedRepo, (get_top_languages repos).length ≤ 8) ∧
    (∀ repos : List OwnedRepo,
      List.Pairwise (fun a b : Str × ℚ => b.2 ≤ a.2) (get_top_languages repos)) ∧
    (∀ repos : List OwnedRepo, sumBytes (accLangs repos) = 0 →
      ∀ p ∈ get_top_languages repos, p.2 = 0) ∧
    (get_top_languages
        [⟨false, [(("A").toList, 300)]⟩, ⟨false, [(("B").toList, 100)]⟩,
         ⟨false, [(("C").toList, 600)]⟩] =
      [(("C").toList, 3/5), (("A").toList, 3/10), (("B").toList, 1/10)]) := by
  have hlen : ∀ repos : List OwnedRepo, (get_top_languages repos).length ≤ 8 := by
    intro repos
    unfold get_top_languages
    simp only [List.length_map]
    exact List.length_take_le _ _
  refine ⟨?_, accLangs_lookup, hlen, ?_, ?_, ?_⟩
  · intro repos
    unfold get_top_languages
    rw [accLangs_skip_forks]
  · intro repos
    unfold get_top_languages
    have hs : List.Sorted byteGE ((accLangs repos).insertionSort byteGE) :=
      List.sorted_insertionSort byteGE (accLangs repos)
    have ht : List.Pairwise byteGE (((accLangs repos).insertionSort byteGE).take 8) :=
      List.Pairwise.sublist (List.take_sublist _ _) hs
    refine List.Pairwise.map _ ?_ ht
    intro a b hab
    have htot : (0 : ℚ) <
        ((if sumBytes (accLangs repos) = 0 then 1 else sumBytes (accLangs repos) : Nat) : ℚ) := by
      have h0 : 0 < (if sumBytes (accLangs repos) = 0 then 1 else sumBytes (accLangs repos)) := by
        split
        · norm_num
        · omega
      exact_mod_cast h0
    exact (div_le_div_iff_of_pos_right htot).mpr (by exact_mod_cast hab)
  · intro repos hsum p hp
    unfold get_top_languages at hp
    obtain ⟨q, hq, hqe⟩ := List.mem_map.mp hp
    have hq1 : q ∈ (accLangs repos).insertionSort byteGE :=
      List.mem_of_mem_take hq
    have hq2 : q ∈ accLangs repos :=
      (List.perm_insertionSort byteGE (accLangs repos)).mem_iff.mp hq1
    have hqv : q.2 ∈ (accLangs repos).map (fun p => p.2) :=
      List.mem_map.mpr ⟨q, hq2, rfl⟩
    have hle : q.2 ≤ sumBytes (accLangs repos) :=
      List.single_le_sum (fun x _ => Nat.zero_le x) _ hqv
    rw [hsum] at hle
    have hz : q.2 = 0 := Nat.le_zero.mp hle
    rw [← hqe]
    simp [hz]
  · norm_num [get_top_languages, accLangs, bumpLang, sumBytes,
      List.insertionSort, List.orderedInsert, byteGE,
      show ('A' : Char) ≠ 'C' from by decide, show ('B' : Char) ≠ 'C' from by decide]

/-- Witness for C7 at a concrete input: a fork is ignored. -/
theorem top_languages_C7_witness :
    get_top_languages
        ([⟨true, [(("D").toList, 5)]⟩, (⟨false, [(("A").toList, 3)]⟩ : OwnedRepo)].filter
          (fun r => !r.fork)) =
      get_top_languages
        [⟨true, [(("D").toList, 5)]⟩, ⟨false, [(("A").toList, 3)]⟩] :=
  top_languages_C7.1 [⟨true, [(("D").toList, 5)]⟩, ⟨false, [(("A").toList, 3)]⟩]

/-! ### C5: the language bar chart renderer -/

lemma roundHalfEven_abs (x : ℚ) : |((roundHalfEven x : ℤ) : ℚ) - x| ≤ 1 / 2 := by
  have h0 : ((⌊x⌋ : ℤ) : ℚ) ≤ x := Int.floor_le x
  have h1 : x < ((⌊x⌋ : ℤ) : ℚ) + 1 := Int.lt_floor_add_one x
  unfold roundHalfEven
  split_ifs with hA hB hC
  · rw [abs_le]; constructor <;> linarith
  · rw [abs_le]; push_cast; constructor <;> linarith
  · rw [abs_le]
    have he : x - ((⌊x⌋ : ℤ) : ℚ) = 1 / 2 := by linarith
    constructor <;> linarith
  · rw [abs_le]
    have he : x - ((⌊x⌋ : ℤ) : ℚ) = 1 / 2 := by linarith
    push_cast
    constructor <;> linarith

lemma barFill_le_20 (p : ℚ) (_h0 : 0 ≤ p) (h1 : p ≤ 1) : barFill p ≤ 20 := by
  unfold barFill
  have h2 : ⌊p * 20⌋ ≤ 20 := by
    have h3 : p * 20 ≤ 20 := by nlinarith
    calc ⌊p * 20⌋ ≤ ⌊(20 : ℚ)⌋ := Int.floor_le_floor h3
    _ = 20 := by norm_num
  exact Int.toNat_le.mpr h2

lemma barOf_length (p : ℚ) (h0 : 0 ≤ p) (h1 : p ≤ 1) : (barOf p).length = 20 := by
  unfold barOf
  rw [List.length_append, List.length_replicate, List.length_replicate]
  have := barFill_le_20 p h0 h1
  omega

lemma barOf_count_filled (p : ℚ) : (barOf p).count '█' = barFill p := by
  unfold barOf
  rw [List.count_append, List.count_replicate, List.count_replicate]
  norm_num
  intro h
  exact absurd h (by decide)

lemma padName_length (l : Str) : (padName l).length = max 14 l.length := by
  unfold padName
  rw [List.length_append, List.length_replicate]
  omega

/-- Claim C5, amended: for a nonempty ranked list with fractions in `[0, 1]`,
`build_lang_section` emits a fenced block with one line per language; each
bar is exactly 20 characters whose filled portion is the *truncation*
`int(pct * 20)` (not `round`, see the counterexample), the name field is
padded to 14 characters (never truncated), the displayed percentage is the
true percentage to within half a unit in the first decimal place, and every
entry of the input is rendered with no percentage floor. -/
theorem lang_section_render_C5 (langs : List (Str × ℚ)) (hne : langs ≠ [])
    (hp : ∀ q ∈ langs, 0 ≤ q.2 ∧ q.2 ≤ 1) :
    build_lang_section langs =
      ("```\n").toList ++
        List.intercalate ['\n'] (langs.map (fun q => renderLine q.1 q.2)) ++
        ("\n```").toList ∧
    (langs.map (fun q => renderLine q.1 q.2)).length = langs.length ∧
    ∀ q ∈ langs,
      (barOf q.2).length = 20 ∧
      (barOf q.2).count '█' = (⌊q.2 * 20⌋).toNat ∧
      (padName q.1).length = max 14 q.1.length ∧
      |((roundHalfEven (q.2 * 100 * 10) : ℤ) : ℚ) / 10 - q.2 * 100| ≤ 1 / 20 ∧
      renderLine q.1 q.2 = ' ' :: ' ' :: (emojiOf q.1 ++ ' ' :: (padName q.1 ++
        ' ' :: (barOf q.2 ++ ' ' :: (fmt51 (q.2 * 100) ++ ['%']))))  := by
  refine ⟨by unfold build_lang_section; rw [if_neg hne], List.length_map _ _, ?_⟩
  intro q hq
  obtain ⟨hq0, hq1⟩ := hp q hq
  refine ⟨barOf_length q.2 hq0 hq1, barOf_count_filled q.2, padName_length q.1, ?_, rfl⟩
  have habs := roundHalfEven_abs (q.2 * 100 * 10)
  have he : ((roundHalfEven (q.2 * 100 * 10) : ℤ) : ℚ) / 10 - q.2 * 100 =
      (((roundHalfEven (q.2 * 100 * 10) : ℤ) : ℚ) - q.2 * 100 * 10) / 10 := by
    ring
  rw [he, abs_div]
  rw [show |(10 : ℚ)| = 10 by norm_num]
  rw [div_le_iff₀ (by norm_num : (0:ℚ) < 10)]
  linarith

/-- Witness for C5 at a concrete input: a single language at fraction 1/2. -/
theorem lang_section_render_C5_witness :
    (barOf ((1 : ℚ)/2)).length = 20 ∧
    (barOf ((1 : ℚ)/2)).count '█' = (⌊(1 : ℚ)/2 * 20⌋).toNat :=
  have h := lang_section_render_C5 [(("Python").toList, (1 : ℚ)/2)] (by simp)
    (by intro q hq; rw [List.mem_singleton] at hq; subst hq; norm_num)
  have h2 := h.2.2 (("Python").toList, (1 : ℚ)/2) (List.mem_singleton.mpr rfl)
  ⟨h2.1, h2.2.1⟩

/-- Counterexample to C5 as stated: at fraction 9/100 the code fills
`int(0.09 * 20) = 1` bar cell, while `round(0.09 * 20) = round(1.8) = 2` —
the filled portion is a truncation, not a rounding. -/
theorem lang_section_render_C5_cex :
    barOf ((9 : ℚ)/100) = '█' :: List.replicate 19 '░' ∧
    roundHalfEven ((9 : ℚ)/100 * 20) = 2 := by
  have hq : (9 : ℚ)/100 * 20 = 9/5 := by norm_num
  have hf : ⌊(9 : ℚ)/5⌋ = 1 := by
    rw [Int.floor_eq_iff]
    constructor <;> norm_num
  constructor
  · unfold barOf barFill
    rw [hq, hf]
    rfl
  · unfold roundHalfEven
    rw [hq, hf]
    norm_num

/-! ### Regex engine lemmas -/

lemma findEnd_sound (e : Str) :
    ∀ (c g p : Str), findEnd e c = some (g, p) →
      c = g ++ e ++ p ∧ ∀ q < g.length, ¬ ∃ t, e ++ t = c.drop q := by
  intro c
  induction c with
  | nil =>
    intro g p h
    unfold findEnd at h
    by_cases hp : e.isPrefixOf ([] : Str)
    · rw [if_pos hp] at h
      obtain ⟨t, ht⟩ := (isPrefixOf_true e []).mp hp
      have he : e = [] := by
        cases e with
        | nil => rfl
        | cons x xs => cases ht
      injection h with h1
      injection h1 with hg hpp
      subst hg; subst hpp; subst he
      exact ⟨rfl, by intro q hq; simp at hq⟩
    · rw [if_neg hp] at h
      cases h
  | cons ch rest ih =>
    intro g p h
    unfold findEnd at h
    by_cases hp : e.isPrefixOf (ch :: rest)
    · rw [if_pos hp] at h
      obtain ⟨t, ht⟩ := (isPrefixOf_true e (ch :: rest)).mp hp
      injection h with h1
      injection h1 with hg hpp
      subst hg
      have hdrop : (ch :: rest).drop e.length = t := by
        rw [← ht, List.drop_left]
      rw [← hpp, hdrop]
      exact ⟨by rw [← ht]; simp, by intro q hq; simp at hq⟩
    · rw [if_neg hp] at h
      dsimp only at h
      cases hfe : findEnd e rest with
      | none => rw [hfe] at h; cases h
      | some gp =>
        rw [hfe] at h
        obtain ⟨g', p'⟩ := gp
        simp only [Option.map_some'] at h
        injection h with h1
        injection h1 with hg hpp
        subst hg; subst hpp
        obtain ⟨hdec, hmin⟩ := ih g' p' hfe
        constructor
        · simp [hdec]
        · intro q hq
          cases q with
          | zero =>
            intro ⟨t, ht⟩
            exact hp ((isPrefixOf_true e (ch :: rest)).mpr ⟨t, by simpa using ht⟩)
          | succ q' =>
            simp only [List.length_cons, Nat.succ_lt_succ_iff] at hq
            simpa using hmin q' hq

lemma findEnd_none (e : Str) :
    ∀ c, findEnd e c = none → ∀ q, ¬ ∃ t, e ++ t = c.drop q := by
  intro c
  induction c with
  | nil =>
    intro h q ⟨t, ht⟩
    unfold findEnd at h
    have he : e = [] := by
      cases e with
      | nil => rfl
      | cons x xs => simp at ht
    subst he
    simp [List.isPrefixOf] at h
  | cons ch rest ih =>
    intro h q
    unfold findEnd at h
    by_cases hp : e.isPrefixOf (ch :: rest)
    · rw [if_pos hp] at h; cases h
    · rw [if_neg hp] at h
      dsimp only at h
      cases q with
      | zero =>
        intro ⟨t, ht⟩
        exact hp ((isPrefixOf_true e (ch :: rest)).mpr ⟨t, by simpa using ht⟩)
      | succ q' =>
        cases hfe : findEnd e rest with
        | none => simpa using ih hfe q'
        | some gp => rw [hfe] at h; cases h

lemma findEnd_of_min (e : Str) :
    ∀ (k : Nat) (c : Str), (∃ t, e ++ t = c.drop k) →
      (∀ q < k, ¬ ∃ t, e ++ t = c.drop q) → k ≤ c.length →
      findEnd e c = some (c.take k, c.drop (k + e.length)) := by
  intro k
  induction k with
  | zero =>
    intro c ⟨t, ht⟩ _ _
    simp only [List.drop_zero] at ht
    unfold findEnd
    rw [if_pos ((isPrefixOf_true e c).mpr ⟨t, ht⟩)]
    cases c with
    | nil => simp
    | cons ch rest => simp
  | succ k' ih =>
    intro c hocc hmin hk
    cases c with
    | nil => simp at hk
    | cons ch rest =>
      have hnp : ¬ e.isPrefixOf (ch :: rest) := by
        intro hp
        obtain ⟨t, ht⟩ := (isPrefixOf_true e (ch :: rest)).mp hp
        exact hmin 0 (Nat.succ_pos k') ⟨t, by simpa using ht⟩
      unfold findEnd
      rw [if_neg hnp]
      dsimp only
      have hrec := ih rest (by simpa using hocc)
        (fun q hq => by simpa using hmin (q + 1) (Nat.succ_lt_succ hq))
        (by simpa using hk)
      rw [hrec]
      simp only [Option.map_some']
      have harith : k' + 1 + e.length = (k' + e.length) + 1 := by omega
      rw [harith]
      simp [List.take_succ_cons, List.drop_succ_cons]

lemma tryAtSec_sound (s e x m p : Str) (h : tryAtSec s e x = some (m, p)) :
    ∃ g, m = s ++ g ++ e ∧ x = s ++ (g ++ e ++ p) ∧
      ∀ q < g.length, ¬ ∃ t, e ++ t = (g ++ e ++ p).drop q := by
  unfold tryAtSec at h
  by_cases hp : s.isPrefixOf x
  · rw [if_pos hp] at h
    cases hfe : findEnd e (x.drop s.length) with
    | none => rw [hfe] at h; cases h
    | some gp =>
      rw [hfe] at h
      obtain ⟨g, p'⟩ := gp
      simp only [Option.map_some'] at h
      injection h with h1
      injection h1 with hm hpp
      subst hpp
      obtain ⟨t, ht⟩ := (isPrefixOf_true s x).mp hp
      have hdrop : x.drop s.length = t := by rw [← ht, List.drop_left]
      obtain ⟨hdec, hmin⟩ := findEnd_sound e (x.drop s.length) g p' hfe
      refine ⟨g, hm.symm, ?_, ?_⟩
      · rw [← ht, hdrop.symm.trans hdec]
      · intro q hq
        have := hmin q hq
        rw [← hdec]
        exact this
  · rw [if_neg hp] at h
    cases h

lemma scanMatch_sound (t : Str → Option (Str × Str)) :
    ∀ (c pre m post : Str), scanMatch t c = some (pre, m, post) →
      ∃ rest, c = pre ++ rest ∧ t rest = some (m, post) ∧
        ∀ q < pre.length, t (c.drop q) = none := by
  intro c
  induction c with
  | nil =>
    intro pre m post h
    simp only [scanMatch] at h
    cases ht : t [] with
    | none => rw [ht] at h; cases h
    | some mp =>
      rw [ht] at h
      simp only [Option.map_some'] at h
      injection h with h1
      obtain ⟨e1, e2⟩ := Prod.mk.injEq .. ▸ h1
      injection h1 with hpre hrest
      subst hpre
      injection hrest with hm hpost
      subst hm; subst hpost
      exact ⟨[], rfl, by simpa using ht, by intro q hq; simp at hq⟩
  | cons ch rest0 ih =>
    intro pre m post h
    simp only [scanMatch] at h
    cases ht : t (ch :: rest0) with
    | some mp =>
      rw [ht] at h
      dsimp only at h
      injection h with h1
      injection h1 with hpre hrest
      subst hpre
      injection hrest with hm hpost
      subst hm; subst hpost
      exact ⟨ch :: rest0, rfl, by simpa using ht, by intro q hq; simp at hq⟩
    | none =>
      rw [ht] at h
      dsimp only at h
      cases hsc : scanMatch t rest0 with
      | none => rw [hsc] at h; cases h
      | some x =>
        rw [hsc] at h
        obtain ⟨pre', m', post'⟩ := x
        simp only [Option.map_some'] at h
        injection h with h1
        injection h1 with hpre hrest
        subst hpre
        injection hrest with hm hpost
        subst hm; subst hpost
        obtain ⟨r, hr1, hr2, hr3⟩ := ih pre' m' post' hsc
        refine ⟨r, by rw [List.cons_append, ← hr1], hr2, ?_⟩
        intro q hq
        cases q with
        | zero => simpa using ht
        | succ q' =>
          simp only [List.length_cons, Nat.succ_lt_succ_iff] at hq
          simpa using hr3 q' hq

lemma scanMatch_none (t : Str → Option (Str × Str)) :
    ∀ c, scanMatch t c = none → ∀ q, t (c.drop q) = none := by
  intro c
  induction c with
  | nil =>
    intro h q
    simp only [scanMatch] at h
    cases ht : t [] with
    | none => simpa using ht
    | some mp => rw [ht] at h; cases h
  | cons ch rest ih =>
    intro h q
    simp only [scanMatch] at h
    cases ht : t (ch :: rest) with
    | some mp => rw [ht] at h; cases h
    | none =>
      rw [ht] at h
      dsimp only at h
      cases q with
      | zero => simpa using ht
      | succ q' =>
        cases hsc : scanMatch t rest with
        | none => simpa using ih hsc q'
        | some x => rw [hsc] at h; cases h

lemma scanMatch_of (t : Str → Option (Str × Str)) :
    ∀ (pre rest m post : Str),
      (∀ q < pre.length, t ((pre ++ rest).drop q) = none) →
      t rest = some (m, post) →
      scanMatch t (pre ++ rest) = some (pre, m, post) := by
  intro pre
  induction pre with
  | nil =>
    intro rest m post _ ht
    cases rest with
    | nil => simp [scanMatch, ht]
    | cons ch r => simp [scanMatch, ht]
  | cons ch pre' ih =>
    intro rest m post hnone ht
    have ht0 : t (ch :: (pre' ++ rest)) = none := by
      simpa using hnone 0 (Nat.succ_pos _)
    have hrec := ih rest m post
      (fun q hq => by simpa using hnone (q + 1) (Nat.succ_lt_succ hq)) ht
    simp [scanMatch, ht0, hrec]

/-- Soundness contract for the position-local matchers fed into `reSub`:
every match decomposes its input and is nonempty. -/
def TryAtSpec (t : Str → Option (Str × Str)) : Prop :=
  ∀ x m p, t x = some (m, p) → x = m ++ p ∧ m ≠ []

lemma tryAtSec_spec (s e : Str) (he : e ≠ []) : TryAtSpec (tryAtSec s e) := by
  intro x m p h
  obtain ⟨g, hm, hx, _⟩ := tryAtSec_sound s e x m p h
  constructor
  · rw [hx, hm]
    simp
  · rw [hm]
    intro hcon
    have := List.append_eq_nil.mp hcon
    exact he this.2

lemma tsGap_sound : ∀ (x g p : Str), tsGap x = some (g, p) →
    x = g ++ tsLit2 ++ p ∧ g ≠ [] := by
  intro x
  induction x with
  | nil => intro g p h; cases h
  | cons ch rest ih =>
    intro g p h
    unfold tsGap at h
    by_cases hn : ch = '\n'
    · rw [if_pos hn] at h; cases h
    · rw [if_neg hn] at h
      by_cases hp : tsLit2.isPrefixOf rest
      · rw [if_pos hp] at h
        injection h with h1
        injection h1 with hg hpp
        subst hg; subst hpp
        obtain ⟨t, ht⟩ := (isPrefixOf_true tsLit2 rest).mp hp
        have hdrop : rest.drop 3 = t := by
          rw [← ht]
          exact List.drop_left tsLit2 t
        rw [hdrop]
        exact ⟨by rw [← ht]; simp, by simp⟩
      · rw [if_neg hp] at h
        cases hgap : tsGap rest with
        | none => rw [hgap] at h; cases h
        | some gp =>
          rw [hgap] at h
          obtain ⟨g', p'⟩ := gp
          simp only [Option.map_some'] at h
          injection h with h1
          injection h1 with hg hpp
          subst hg; subst hpp
          obtain ⟨hdec, _⟩ := ih g' p' hgap
          exact ⟨by simp [hdec], by simp⟩

lemma tsTry_spec : TryAtSpec tsTry := by
  intro x m p h
  unfold tsTry at h
  by_cases hp : tsLit1.isPrefixOf x
  · rw [if_pos hp] at h
    cases hgap : tsGap (x.drop tsLit1.length) with
    | none => rw [hgap] at h; cases h
    | some gp =>
      rw [hgap] at h
      obtain ⟨g, p'⟩ := gp
      simp only [Option.map_some'] at h
      injection h with h1
      injection h1 with hm hpp
      subst hpp
      obtain ⟨t, ht⟩ := (isPrefixOf_true tsLit1 x).mp hp
      have hdrop : x.drop tsLit1.length = t := by rw [← ht, List.drop_left]
      obtain ⟨hdec, hg⟩ := tsGap_sound (x.drop tsLit1.length) g p' hgap
      constructor
      · rw [← hm, ← ht, hdrop.symm.trans hdec]
        simp
      · rw [← hm]
        intro hcon
        have h2 := List.append_eq_nil.mp hcon
        have h3 := List.append_eq_nil.mp h2.1
        exact absurd h3.1 (by decide)
  · rw [if_neg hp] at h
    cases h

lemma reSubFuel_congr (t : Str → Option (Str × Str)) (R : Str → Str) (hs : TryAtSpec t) :
    ∀ (n1 : Nat) (c : Str) (n2 : Nat), c.length < n1 → c.length < n2 →
      reSubFuel t R n1 c = reSubFuel t R n2 c := by
  intro n1
  induction n1 with
  | zero => intro c n2 h1 _; omega
  | succ n1' ih =>
    intro c n2 h1 h2
    cases n2 with
    | zero => omega
    | succ n2' =>
      simp only [reSubFuel]
      cases hm : scanMatch t c with
      | none => rfl
      | some x =>
        obtain ⟨pre, m, post⟩ := x
        obtain ⟨rest, hc, ht, _⟩ := scanMatch_sound t c pre m post hm
        obtain ⟨hrd, hmne⟩ := hs rest m post ht
        have hlen : post.length < c.length := by
          rw [hc, hrd]
          simp only [List.length_append]
          have := List.length_pos.mpr hmne
          omega
        dsimp only
        rw [if_neg (by simpa using hmne), if_neg (by simpa using hmne)]
        have hrec := ih post n2' (by omega) (by omega)
        rw [hrec]

lemma reSub_none (t : Str → Option (Str × Str)) (R : Str → Str) (c : Str)
    (h : scanMatch t c = none) : reSub t R c = c := by
  unfold reSub
  simp only [reSubFuel]
  rw [h]

lemma reSub_some (t : Str → Option (Str × Str)) (R : Str → Str) (hs : TryAtSpec t)
    (c pre m post : Str) (h : scanMatch t c = some (pre, m, post)) :
    reSub t R c = pre ++ R m ++ reSub t R post := by
  obtain ⟨rest, hc, ht, _⟩ := scanMatch_sound t c pre m post h
  obtain ⟨hrd, hmne⟩ := hs rest m post ht
  have hlen : post.length < c.length := by
    rw [hc, hrd]
    simp only [List.length_append]
    have := List.length_pos.mpr hmne
    omega
  have key : reSubFuel t R (c.length + 1) c = pre ++ R m ++ reSubFuel t R c.length post := by
    simp only [reSubFuel]
    rw [h]
    dsimp only
    rw [if_neg (by simpa using hmne)]
  calc reSub t R c = reSubFuel t R (c.length + 1) c := rfl
  _ = pre ++ R m ++ reSubFuel t R c.length post := key
  _ = pre ++ R m ++ reSubFuel t R (post.length + 1) post := by
      rw [reSubFuel_congr t R hs c.length post (post.length + 1) (by omega) (by omega)]
  _ = pre ++ R m ++ reSub t R post := rfl

lemma scanMatch_sec_none (s e c : Str) (h : ¬ ∃ u v, u ++ s ++ v = c) :
    scanMatch (tryAtSec s e) c = none := by
  cases hm : scanMatch (tryAtSec s e) c with
  | none => rfl
  | some x =>
    exfalso
    obtain ⟨pre, m, post⟩ := x
    obtain ⟨rest, hc, ht, _⟩ := scanMatch_sound (tryAtSec s e) c pre m post hm
    obtain ⟨g, _, hx, _⟩ := tryAtSec_sound s e rest m post ht
    exact h ⟨pre, g ++ e ++ post, by rw [hc, hx]; simp⟩

lemma replace_section_no_match (c s e frag : Str) (h : ¬ (s <:+: c)) :
    replace_section c s e frag = some c := by
  have hsc : scanMatch (tryAtSec s e) c = none := by
    refine scanMatch_sec_none s e c ?_
    intro ⟨u, v, huv⟩
    exact h ⟨u, v, huv⟩
  unfold replace_section
  rw [hsc]

lemma parseReplFuel_nb :
    ∀ (n : Nat) (r : Str), r.length < n → (∀ ch ∈ r, ch ≠ '\\') →
      parseReplFuel n r = some (r.map RePiece.ch) := by
  intro n
  induction n with
  | zero => intro r h _; omega
  | succ n' ih =>
    intro r hlen hnb
    cases r with
    | nil => rfl
    | cons c rest =>
      have hc : ¬ (c = '\\') := hnb c (List.mem_cons_self _ _)
      simp only [parseReplFuel]
      rw [if_neg hc]
      rw [ih rest (by simpa using hlen) (fun ch hch => hnb ch (List.mem_cons_of_mem _ hch))]
      rfl

lemma parseRepl_nb (r : Str) (hnb : ∀ ch ∈ r, ch ≠ '\\') :
    parseRepl r = some (r.map RePiece.ch) :=
  parseReplFuel_nb (r.length + 1) r (Nat.lt_succ_self _) hnb

lemma expandRepl_map_ch (r : Str) (m : Str) :
    expandRepl (r.map RePiece.ch) m = r := by
  induction r with
  | nil => rfl
  | cons c rest ih =>
    simp only [List.map_cons, expandRepl, List.flatMap_cons] at *
    rw [ih]
    rfl

/-- On a backslash-free replacement (the case for this program's own marker
text whenever the rendered fragment contains no backslash), template
processing is the identity: `replace_section` always succeeds and
substitutes the replacement text literally. -/
lemma replace_section_nb (s e frag : Str)
    (hnb : ∀ ch ∈ s ++ '\n' :: (frag ++ '\n' :: e), ch ≠ '\\') (c : Str) :
    replace_section c s e frag =
      some (reSub (tryAtSec s e) (fun _ => s ++ '\n' :: (frag ++ '\n' :: e)) c) := by
  unfold replace_section
  cases hsc : scanMatch (tryAtSec s e) c with
  | none =>
    rw [reSub_none _ _ _ hsc]
  | some x =>
    rw [parseRepl_nb _ hnb]
    simp only [Option.map_some']
    have hexp : expandRepl ((s ++ '\n' :: (frag ++ '\n' :: e)).map RePiece.ch) =
        fun _ => s ++ '\n' :: (frag ++ '\n' :: e) :=
      funext (fun m => expandRepl_map_ch _ m)
    rw [hexp]

/-- The collapsed error path is real: a `\q` in the fragment (e.g. from a PR
title) makes `pattern.sub` raise `re.error: bad escape`, modelled as
`none`. -/
lemma replace_section_bad_escape :
    replace_section ("SxE").toList ("S").toList ("E").toList ("\\q").toList = none := by
  decide

/-- Template expansion is modelled, not just the error: a `\g<0>` in the
fragment expands to the matched span itself. -/
lemma replace_section_group_ref :
    replace_section ("SxE").toList ("S").toList ("E").toList ("\\g<0>").toList =
      some (("S\nSxE\nE").toList) := by
  decide

/-! ### C4: replace_section semantics -/

/-- Claim C4, amended: when the marker pair is absent `replace_section`
returns the document untouched without even parsing the replacement;
otherwise it parses the replacement template `start+"\n"+fragment+"\n"+end`
under `re.sub`'s escape rules (raising — modelled `none` — on bad escapes
such as a `\d` contributed by the fragment) and substitutes its expansion
for *every* non-overlapping leftmost-then-non-greedy `start ... end` span
(third conjunct, the recursive `re.sub` equation).  For a backslash-free
fragment and markers the expansion is the literal
`start+"\n"+fragment+"\n"+end`; in particular, when the matcher finds
exactly one span, the result is that single span replaced with the
surrounding document unchanged (first conjunct), the span being the first
start-marker occurrence extended to the nearest end marker (second
conjunct). -/
theorem replace_single_C4 (c s e frag pre m post : Str) (he : e ≠ [])
    (hnb : ∀ ch ∈ s ++ '\n' :: (frag ++ '\n' :: e), ch ≠ '\\')
    (hm : scanMatch (tryAtSec s e) c = some (pre, m, post))
    (hrest : scanMatch (tryAtSec s e) post = none) :
    replace_section c s e frag =
      some (pre ++ (s ++ '\n' :: (frag ++ '\n' :: e)) ++ post) ∧
    (∃ g, m = s ++ g ++ e ∧ c = pre ++ m ++ post ∧
      (∀ q < pre.length, tryAtSec s e (c.drop q) = none) ∧
      (∀ q < g.length, ¬ ∃ t, e ++ t = (g ++ e ++ post).drop q)) ∧
    (∀ c2 pre2 m2 post2, scanMatch (tryAtSec s e) c2 = some (pre2, m2, post2) →
      ∃ l2, replace_section post2 s e frag = some l2 ∧
        replace_section c2 s e frag =
          some (pre2 ++ (s ++ '\n' :: (frag ++ '\n' :: e)) ++ l2)) := by
  have hspec := tryAtSec_spec s e he
  have hlit := replace_section_nb s e frag hnb
  have hone : ∀ c2 pre2 m2 post2, scanMatch (tryAtSec s e) c2 = some (pre2, m2, post2) →
      ∃ l2, replace_section post2 s e frag = some l2 ∧
        replace_section c2 s e frag =
          some (pre2 ++ (s ++ '\n' :: (frag ++ '\n' :: e)) ++ l2) := by
    intro c2 pre2 m2 post2 h2
    refine ⟨reSub (tryAtSec s e) (fun _ => s ++ '\n' :: (frag ++ '\n' :: e)) post2,
      hlit post2, ?_⟩
    rw [hlit c2, reSub_some _ _ hspec c2 pre2 m2 post2 h2]
  refine ⟨?_, ?_, hone⟩
  · rw [hlit c, reSub_some _ _ hspec c pre m post hm,
      reSub_none _ _ _ hrest]
  · obtain ⟨rest, hc, ht, hleft⟩ := scanMatch_sound (tryAtSec s e) c pre m post hm
    obtain ⟨g, hmg, hx, hgmin⟩ := tryAtSec_sound s e rest m post ht
    obtain ⟨hrd, _⟩ := hspec rest m post ht
    refine ⟨g, hmg, by rw [hc, hrd]; simp, ?_, hgmin⟩
    intro q hq
    have h2 := hleft q hq
    cases hd : tryAtSec s e (c.drop q) with
    | none => rfl
    | some mp => rw [hd] at h2; cases h2

/-- Witness for C4 at a concrete input with a unique marker span and a
backslash-free fragment. -/
theorem replace_single_C4_witness :
    replace_section ("aSxEb").toList ("S").toList ("E").toList ("f").toList =
      some (("a").toList ++
        (("S").toList ++ '\n' :: (("f").toList ++ '\n' :: ("E").toList)) ++
        ("b").toList) :=
  (replace_single_C4 ("aSxEb").toList ("S").toList ("E").toList ("f").toList
    ("a").toList ("SxE").toList ("b").toList (by decide) (by decide) (by decide)
    (by decide)).1

/-- Counterexample to C4 as stated: with two disjoint marker spans the code
replaces both (it is `re.sub`, not a first-occurrence replacement), so the
document is not left unchanged outside the first span. -/
theorem replace_single_C4_cex :
    replace_section ("SaEbScE").toList ("S").toList ("E").toList ("f").toList ≠
      some (("S\nf\nEbScE").toList) ∧
    replace_section ("SaEbScE").toList ("S").toList ("E").toList ("f").toList =
      some (("S\nf\nEbS\nf\nE").toList) := by
  exact ⟨by decide, by decide⟩

/-! ### C9: the marker-absence frame property -/

/-- Claim C9: on a document containing neither start marker, both
`replace_section` passes take the failed-`pattern.search` path and return
the document unchanged (never touching `re.sub` or its template), so the
patch step reduces to the timestamp substitution alone (first conjunct); if
no timestamp comment is present either, the document is returned
byte-for-byte unchanged (second conjunct); and when a timestamp comment is
present, only its span is rewritten — the prefix before the match and the
remainder are passed through (third conjunct). -/
theorem patch_frame_C9 (c contribMd langMd now : Str)
    (h1 : ¬ (SECTION_START <:+: c)) (h2 : ¬ (LANG_START <:+: c)) :
    patchStep c contribMd langMd now = some (tsSub now c) ∧
    (scanMatch tsTry c = none → patchStep c contribMd langMd now = some c) ∧
    (∀ pre m post, scanMatch tsTry c = some (pre, m, post) →
      tsSub now c = pre ++ tsRepl now ++ tsSub now post) := by
  have e1 : replace_section c SECTION_START SECTION_END contribMd = some c :=
    replace_section_no_match c SECTION_START SECTION_END contribMd h1
  have e2 : replace_section c LANG_START LANG_END langMd = some c :=
    replace_section_no_match c LANG_START LANG_END langMd h2
  have hpatch : patchStep c contribMd langMd now = some (tsSub now c) := by
    unfold patchStep
    rw [e1]
    simp only [Option.some_bind]
    rw [e2]
    simp only [Option.map_some']
  refine ⟨hpatch, ?_, ?_⟩
  · intro hn
    rw [hpatch]
    exact congrArg some (reSub_none tsTry (fun _ => tsRepl now) c hn)
  · intro pre m post hm
    exact reSub_some _ _ tsTry_spec c pre m post hm

/-- Witness for C9 at a concrete input: a short document with no markers and
no timestamp comment passes through the patch step unchanged. -/
theorem patch_frame_C9_witness :
    patchStep ("abc").toList ("X").toList ("Y").toList ("Oct 12, 2026").toList =
      some (("abc").toList) :=
  (patch_frame_C9 ("abc").toList ("X").toList ("Y").toList ("Oct 12, 2026").toList
    (by decide) (by decide)).2.1 (by decide)

/-! ### C8: idempotence of the document patcher -/

lemma isPrefixOf_iff_take (w y : Str) :
    w.isPrefixOf y = true ↔ y.take w.length = w := by
  rw [isPrefixOf_true]
  constructor
  · rintro ⟨t, rfl⟩
    exact List.take_left w t
  · intro h
    refine ⟨y.drop w.length, ?_⟩
    have h2 := List.take_append_drop w.length y
    rw [h] at h2
    exact h2

lemma take_len_append_indep (w u A B : Str) :
    (u ++ (w ++ A)).take w.length = (u ++ (w ++ B)).take w.length := by
  rw [List.take_append_eq_append_take, List.take_append_eq_append_take,
    List.take_append_eq_append_take, List.take_append_eq_append_take]
  have h0 : w.length - u.length - w.length = 0 := by omega
  rw [h0]
  simp

lemma tryAtSec_nil (s e : Str) (he : e ≠ []) : tryAtSec s e [] = none := by
  unfold tryAtSec
  split
  · have hfe : findEnd e ([] : Str) = none := by
      unfold findEnd
      rw [if_neg]
      intro hp
      obtain ⟨t, ht⟩ := (isPrefixOf_true e []).mp hp
      cases e with
      | nil => exact he rfl
      | cons x xs => cases ht
    simp [hfe]
  · rfl

lemma findEnd_gap (e G X : Str) (hb : Borderfree e)
    (hf : ¬ ∃ u v, u ++ e ++ v = G) :
    findEnd e (G ++ e ++ X) = some (G, X) := by
  have hocc : ∃ t, e ++ t = (G ++ e ++ X).drop G.length := by
    refine ⟨X, ?_⟩
    rw [List.append_assoc, List.drop_left]
  have hmin : ∀ q < G.length, ¬ ∃ t, e ++ t = (G ++ e ++ X).drop q := by
    intro q hq ⟨t, htq⟩
    have hdq : (G ++ e ++ X).drop q = G.drop q ++ (e ++ X) := by
      rw [List.append_assoc, List.drop_append_eq_append_drop]
      have h0 : q - G.length = 0 := by omega
      rw [h0]
      simp
    rw [hdq] at htq
    have hlendrop : (G.drop q).length = G.length - q := List.length_drop _ _
    by_cases hcase : e.length ≤ G.length - q
    · -- the occurrence fits inside G: contradicts hf
      have htake : (e ++ t).take e.length = e := List.take_left e t
      rw [htq] at htake
      rw [List.take_append_eq_append_take] at htake
      have h0 : e.length - (G.drop q).length = 0 := by omega
      rw [h0] at htake
      simp only [List.take_zero, List.append_nil] at htake
      -- htake : (G.drop q).take e.length = e
      refine hf ⟨G.take q, (G.drop q).drop e.length, ?_⟩
      calc G.take q ++ e ++ (G.drop q).drop e.length
          = G.take q ++ ((G.drop q).take e.length ++ (G.drop q).drop e.length) := by
            rw [htake]; simp
      _ = G.take q ++ G.drop q := by rw [List.take_append_drop]
      _ = G := List.take_append_drop _ _
    · -- the occurrence overlaps the terminal `e`: contradicts Borderfree
      have hd1 : 0 < G.length - q := by omega
      have hd2 : G.length - q < e.length := by omega
      have hdrop : (e ++ t).drop (G.length - q) =
          e.drop (G.length - q) ++ t := by
        rw [List.drop_append_eq_append_drop]
        have h0 : G.length - q - e.length = 0 := by omega
        rw [h0]
        simp
      have hrhs : (G.drop q ++ (e ++ X)).drop (G.length - q) = e ++ X := by
        rw [List.drop_append_eq_append_drop]
        have h0 : (G.drop q).drop (G.length - q) = [] :=
          List.drop_eq_nil_of_le (by omega)
        have h1 : G.length - q - (G.drop q).length = 0 := by omega
        rw [h0, h1]
        simp
      have heq : e.drop (G.length - q) ++ t = e ++ X := by
        rw [← hdrop, htq, hrhs]
      have htk : (e.drop (G.length - q) ++ t).take (e.length - (G.length - q)) =
          e.drop (G.length - q) := by
        rw [List.take_append_eq_append_take]
        have hlen2 : (e.drop (G.length - q)).length = e.length - (G.length - q) :=
          List.length_drop _ _
        have h0 : e.length - (G.length - q) - (e.drop (G.length - q)).length = 0 := by
          omega
        rw [h0]
        simp only [List.take_zero, List.append_nil]
        exact List.take_of_length_le (by omega)
      have htk2 : (e ++ X).take (e.length - (G.length - q)) =
          e.take (e.length - (G.length - q)) := by
        rw [List.take_append_eq_append_take]
        have h0 : e.length - (G.length - q) - e.length = 0 := by omega
        rw [h0]
        simp
      have hborder : e.drop (G.length - q) = e.take (e.length - (G.length - q)) := by
        rw [← htk, heq, htk2]
      exact hb (G.length - q) hd2 hd1 hborder
  have h := findEnd_of_min e G.length (G ++ e ++ X) hocc hmin
    (by simp only [List.length_append]; omega)
  have ht : (G ++ e ++ X).take G.length = G := by
    rw [List.append_assoc, List.take_left]
  have hd : (G ++ e ++ X).drop (G.length + e.length) = X := by
    have hgl : G.length + e.length = (G ++ e).length := by simp
    rw [hgl, List.drop_left]
  rw [h, ht, hd]

/-- Engine-level idempotence: substituting the constant replacement
`start+"\n"+fragment+"\n"+end` (the expansion of a backslash-free template)
twice equals doing it once, provided the end marker is nonempty and
border-free and does not occur inside `"\n" + fragment + "\n"`. -/
lemma reSub_sec_idem (s e frag : Str) (he : e ≠ []) (hb : Borderfree e)
    (hf : ¬ (e <:+: ('\n' :: (frag ++ ['\n'])))) :
    ∀ c, reSub (tryAtSec s e) (fun _ => s ++ '\n' :: (frag ++ '\n' :: e))
        (reSub (tryAtSec s e) (fun _ => s ++ '\n' :: (frag ++ '\n' :: e)) c) =
      reSub (tryAtSec s e) (fun _ => s ++ '\n' :: (frag ++ '\n' :: e)) c := by
  have hf' : ¬ ∃ u v, u ++ e ++ v = '\n' :: (frag ++ ['\n']) := by
    intro ⟨u, v, huv⟩
    exact hf ⟨u, v, huv⟩
  have hspec := tryAtSec_spec s e he
  have hR : s ++ '\n' :: (frag ++ '\n' :: e) =
      s ++ ('\n' :: (frag ++ ['\n'])) ++ e := by simp
  suffices H : ∀ (n : Nat) (c : Str), c.length ≤ n →
      reSub (tryAtSec s e) (fun _ => s ++ '\n' :: (frag ++ '\n' :: e))
          (reSub (tryAtSec s e) (fun _ => s ++ '\n' :: (frag ++ '\n' :: e)) c) =
        reSub (tryAtSec s e) (fun _ => s ++ '\n' :: (frag ++ '\n' :: e)) c from
    fun c => H c.length c (le_refl _)
  intro n
  induction n with
  | zero =>
    intro c hlen
    have hc : c = [] := List.eq_nil_of_length_eq_zero (Nat.le_zero.mp hlen)
    subst hc
    have hsc : scanMatch (tryAtSec s e) ([] : Str) = none := by
      simp [scanMatch, tryAtSec_nil s e he]
    have h0 : reSub (tryAtSec s e) (fun _ => s ++ '\n' :: (frag ++ '\n' :: e))
        ([] : Str) = [] := reSub_none _ _ _ hsc
    rw [h0, h0]
  | succ n' ih =>
    intro c hlen
    cases hm : scanMatch (tryAtSec s e) c with
    | none =>
      have h0 : reSub (tryAtSec s e) (fun _ => s ++ '\n' :: (frag ++ '\n' :: e)) c = c :=
        reSub_none _ _ _ hm
      rw [h0, h0]
    | some x =>
      obtain ⟨pre, m, post⟩ := x
      obtain ⟨rest, hc, ht, hleft⟩ := scanMatch_sound _ c pre m post hm
      obtain ⟨g, hmg, hx, _⟩ := tryAtSec_sound s e rest m post ht
      obtain ⟨hrd, hmne⟩ := hspec rest m post ht
      have h1 : reSub (tryAtSec s e) (fun _ => s ++ '\n' :: (frag ++ '\n' :: e)) c =
          pre ++ (s ++ '\n' :: (frag ++ '\n' :: e)) ++
            reSub (tryAtSec s e) (fun _ => s ++ '\n' :: (frag ++ '\n' :: e)) post :=
        reSub_some _ _ hspec c pre m post hm
      set G : Str := '\n' :: (frag ++ ['\n']) with hG
      set X : Str := reSub (tryAtSec s e) (fun _ => s ++ '\n' :: (frag ++ '\n' :: e)) post
        with hX
      have hfind : findEnd e (G ++ e ++ X) = some (G, X) := findEnd_gap e G X hb hf'
      have htry : tryAtSec s e ((s ++ G ++ e) ++ X) = some (s ++ G ++ e, X) := by
        unfold tryAtSec
        have hpf : s.isPrefixOf ((s ++ G ++ e) ++ X) = true :=
          (isPrefixOf_true s _).mpr ⟨G ++ e ++ X, by simp⟩
        rw [if_pos hpf]
        have hdrop : ((s ++ G ++ e) ++ X).drop s.length = G ++ e ++ X := by
          have h4 : (s ++ G ++ e) ++ X = s ++ (G ++ e ++ X) := by simp
          rw [h4, List.drop_left]
        rw [hdrop, hfind]
        simp
      have hsp : ∀ q < pre.length, ¬ s.isPrefixOf (c.drop q) = true := by
        intro q hq hpf
        have h2 := hleft q hq
        unfold tryAtSec at h2
        rw [if_pos hpf] at h2
        have hfe : findEnd e ((c.drop q).drop s.length) = none := by
          cases hfe2 : findEnd e ((c.drop q).drop s.length) with
          | none => rfl
          | some gp => rw [hfe2] at h2; cases h2
        have hnone := findEnd_none e _ hfe (pre.length + g.length - q)
        apply hnone
        refine ⟨post, ?_⟩
        rw [List.drop_drop, List.drop_drop]
        have hcc : c = pre ++ s ++ g ++ (e ++ post) := by
          rw [hc, hx]
          simp
        have hidx : q + (s.length + (pre.length + g.length - q)) =
            (pre ++ s ++ g).length := by
          simp only [List.length_append]
          omega
        rw [hidx, hcc, List.drop_left]
      have hsp2 : ∀ q < pre.length,
          tryAtSec s e ((pre ++ ((s ++ G ++ e) ++ X)).drop q) = none := by
        intro q hq
        have hnp : ¬ s.isPrefixOf ((pre ++ ((s ++ G ++ e) ++ X)).drop q) = true := by
          intro hpf
          apply hsp q hq
          rw [isPrefixOf_iff_take] at hpf ⊢
          have hd2 : (pre ++ ((s ++ G ++ e) ++ X)).drop q =
              pre.drop q ++ (s ++ (G ++ e ++ X)) := by
            rw [List.drop_append_eq_append_drop]
            have h0 : q - pre.length = 0 := by omega
            rw [h0]
            simp
          have hd1 : c.drop q = pre.drop q ++ (s ++ (g ++ e ++ post)) := by
            rw [hc, List.drop_append_eq_append_drop]
            have h0 : q - pre.length = 0 := by omega
            rw [h0, hx]
            simp
          rw [hd2] at hpf
          rw [hd1, take_len_append_indep s (pre.drop q) (g ++ e ++ post) (G ++ e ++ X)]
          exact hpf
        unfold tryAtSec
        rw [if_neg hnp]
      have hsc2 : scanMatch (tryAtSec s e) (pre ++ ((s ++ G ++ e) ++ X)) =
          some (pre, s ++ G ++ e, X) :=
        scanMatch_of _ pre ((s ++ G ++ e) ++ X) (s ++ G ++ e) X hsp2 htry
      have h2 : reSub (tryAtSec s e) (fun _ => s ++ '\n' :: (frag ++ '\n' :: e))
          (pre ++ ((s ++ G ++ e) ++ X)) =
          pre ++ (s ++ '\n' :: (frag ++ '\n' :: e)) ++
            reSub (tryAtSec s e) (fun _ => s ++ '\n' :: (frag ++ '\n' :: e)) X :=
        reSub_some (tryAtSec s e) (fun _ => s ++ '\n' :: (frag ++ '\n' :: e)) hspec
          (pre ++ ((s ++ G ++ e) ++ X)) pre (s ++ G ++ e) X hsc2
      have hlenpost : post.length < c.length := by
        rw [hc, hrd]
        simp only [List.length_append]
        have := List.length_pos.mpr hmne
        omega
      have hXidem : reSub (tryAtSec s e) (fun _ => s ++ '\n' :: (frag ++ '\n' :: e)) X = X :=
        ih post (by omega)
      have hassoc : pre ++ (s ++ '\n' :: (frag ++ '\n' :: e)) ++ X =
          pre ++ ((s ++ G ++ e) ++ X) := by
        rw [hR, List.append_assoc]
      rw [h1, hassoc, h2, hXidem, hassoc]

/-- Claim C8, amended: running `replace_section` twice with the same markers
and the same fragment gives the same document as running it once — whenever
the first run completes at all — provided the end marker is nonempty and
border-free (no nonempty proper suffix of it is also a prefix of it — true
of the program's HTML-comment markers), the end marker does not occur inside
`"\n" + fragment + "\n"` (the counterexample shows idempotence fails when
the fragment contains the end marker), and neither the markers nor the
fragment contain a backslash (otherwise `re.sub`'s template processing can
raise, or expand group references such as `\g<0>` differently on the second
run). -/
theorem replace_idem_C8 (s e frag : Str) (he : e ≠ []) (hb : Borderfree e)
    (hf : ¬ (e <:+: ('\n' :: (frag ++ ['\n']))))
    (hnb : ∀ ch ∈ s ++ '\n' :: (frag ++ '\n' :: e), ch ≠ '\\') :
    ∀ c c1, replace_section c s e frag = some c1 →
      replace_section c1 s e frag = some c1 := by
  intro c c1 h
  rw [replace_section_nb s e frag hnb c] at h
  injection h with h1
  rw [replace_section_nb s e frag hnb c1, ← h1, reSub_sec_idem s e frag he hb hf c]

/-- Witness for C8 at concrete markers and a backslash-free, marker-free
fragment. -/
theorem replace_idem_C8_witness :
    replace_section (("a").toList ++
        (("S").toList ++ '\n' :: (("f").toList ++ '\n' :: ("E").toList)) ++
        ("b").toList) ("S").toList ("E").toList ("f").toList =
      some (("a").toList ++
        (("S").toList ++ '\n' :: (("f").toList ++ '\n' :: ("E").toList)) ++
        ("b").toList) :=
  replace_idem_C8 ("S").toList ("E").toList ("f").toList (by decide) (by decide)
    (by decide) (by decide) (("aSxEb").toList) _ (by decide)

/-- Counterexample to C8 as stated: when the rendered fragment contains the
end marker, the second run matches inside the previously inserted text and
the result grows — running twice is not running once. -/
theorem replace_idem_C8_cex :
    replace_section ("SE").toList ("S").toList ("E").toList ("E").toList =
      some (("S\nE\nE").toList) ∧
    replace_section ("S\nE\nE").toList ("S").toList ("E").toList ("E").toList =
      some (("S\nE\nE\nE").toList) ∧
    ("S\nE\nE\nE").toList ≠ ("S\nE\nE").toList := by
  exact ⟨by decide, by decide, by decide⟩
